import Mathlib

/-!
# workspace-manager: the eviction engine of `main.go`

A shallow embedding of `main.go` and the properties of its registry update and of its two
cleaning strategies.

Conventions of the embedding.

* A `time.Time` is the instant it denotes, an integer number of nanoseconds (`Time`).
  `Before` is `<` on instants; `Add` is `+` (the registry's times come from `time.Now()`
  and from RFC 3339 text, for which adding an `int64` duration never leaves the range of
  `time.Time`).
* `int`, `int64` and `time.Duration` are 64 bit: arithmetic that can leave the range is
  reduced with `wrap64`; `uint64` arithmetic is reduced modulo `2 ^ 64`.
* A finite `float64` is the rational it denotes; each conversion and each arithmetic
  operation of `percentageChange` returns the exact result rounded to the nearest
  `float64`, a tie going to the even significand (`roundF64`).  The two places where Go
  leaves the value of a float to int conversion to the implementation (division by a
  zero `old`, a result outside the range of `int`) are given by the host.
* A Go `map[string]*Workspace` is the list of its entries in the order in which this run
  ranges over it; the theorems hold for every order.  The map of a registry that `init`
  created is never `nil` and holds no `nil` pointer, and the embedding has neither.
* What the program reads from outside (environment, clock, `Statfs`, the outcome of
  `RemoveAll` and of `WriteFile`, the directory walk) is a `Host`; what it changes is a
  `World`.  A function that may end the process with status 1 returns `none` there.
-/

namespace WorkspaceManager

/-! ## Data model -/

/-- Instant denoted by a `time.Time`, in nanoseconds. -/
abbrev Time := Int

/-- Go struct `Workspace`. -/
structure Workspace where
  Size : Int
  Key : String
  LastUsed : Time
  CreationTime : Time
deriving DecidableEq, Repr

/-- Go struct `Spec`: the registry. `Workspaces` lists the entries of the map. -/
structure Spec where
  Workspaces : List (String × Workspace)
  CreationTime : Time
deriving DecidableEq, Repr

/-- Go struct `Stat`. -/
structure Stat where
  Total : Nat
  Free : Nat
deriving DecidableEq, Repr

/-- Fields of `syscall.Statfs_t` that `buidStatOrDie` reads. -/
structure Statfs_t where
  Blocks : Nat
  Bfree : Nat
  Bsize : Int
deriving DecidableEq, Repr

def workspacesSpecFileName : String := "workspace.json"
def commandInit : String := "init"
def commandUpdate : String := "update"
def commandClean : String := "clean"
def cleaningStrategyFreePerecentage : String := "perecentage"
def cleaningStrategyNotUsedAtLeast : String := "unused"

/-- What the process reads from its surroundings. Calls of the same kind are numbered
from 0 in the order in which the process makes them. -/
structure Host where
  /-- Value of `os.Getenv`. -/
  getenv : String → String
  /-- Value of `time.Now()` at its n-th call. -/
  now : Nat → Time
  /-- Outcome of the n-th `syscall.Statfs`, `none` for an error. -/
  statfs : Nat → String → Option Statfs_t
  /-- Whether the n-th `os.RemoveAll` returns an error. -/
  removeAllFails : Nat → String → Bool
  /-- Whether the n-th `ioutil.WriteFile` returns an error. -/
  writeFileFails : Nat → Bool
  /-- Sum of the file sizes below a path as `filepath.Walk` finds it, `none` for an error. -/
  walk : String → Option Int
  /-- Value of `int(f)` when `percentageChange old new` reaches a float `f` that no `int`
  represents. -/
  floatToInt : Nat → Nat → Int

/-- What the process has done so far. -/
structure World where
  /-- Registry that `workspace.json` decodes to, `none` when missing or malformed. -/
  file : Option Spec
  /-- Number of `time.Now()` calls made. -/
  nNow : Nat
  /-- Number of `syscall.Statfs` calls made. -/
  nStat : Nat
  /-- Calls of `os.RemoveAll` made, oldest first: the path and whether it failed. -/
  removals : List (String × Bool)
  /-- Registries handed to `ioutil.WriteFile`, oldest first, with the file written. -/
  writes : List (String × Spec)
deriving DecidableEq, Repr

/-! ## Machine arithmetic -/

/-- Value of an integer as a two's complement `int64`. -/
def wrap64 (x : Int) : Int := (x + 2 ^ 63) % 2 ^ 64 - 2 ^ 63

/-- Conversion `uint64(x)` of an `int64`. -/
def toUint64 (x : Int) : Nat := (x % 2 ^ 64).toNat

/-- Go `math.Round` on the value of a finite `float64`: the nearest integer, a half going
away from zero. The result is again a `float64`. -/
def mathRound (q : ℚ) : Int := if 0 ≤ q then ⌊q + 1 / 2⌋ else -⌊-q + 1 / 2⌋

/-- Power of two with an integer exponent. -/
def pow2 (e : Int) : ℚ :=
  if 0 ≤ e then ((2 ^ e.toNat : Nat) : ℚ) else 1 / ((2 ^ (-e).toNat : Nat) : ℚ)

/-- Binary logarithm of a natural number, rounded down, by halving at most `fuel` times. -/
def log2Fuel : Nat → Nat → Nat
  | 0, _ => 0
  | fuel + 1, n => if n < 2 then 0 else log2Fuel fuel (n / 2) + 1

/-- Binary logarithm of a natural number, rounded down (0 for 0). -/
def natLog2 (n : Nat) : Nat := log2Fuel n n

/-- Exponent of the leading bit of a nonzero rational: the `e` with
`2 ^ e ≤ |q| < 2 ^ (e + 1)`. -/
def floorLog2 (q : ℚ) : Int :=
  let e0 : Int := (natLog2 q.num.natAbs : Int) - (natLog2 q.den : Int)
  if |q| < pow2 e0 then e0 - 1 else e0

/-- Nearest integer, a half going to the even neighbour. -/
def roundHalfEven (q : ℚ) : Int :=
  if q - ⌊q⌋ < 1 / 2 then ⌊q⌋
  else if 1 / 2 < q - ⌊q⌋ then ⌊q⌋ + 1
  else if ⌊q⌋ % 2 = 0 then ⌊q⌋ else ⌊q⌋ + 1

/-- Rounding of an exact value to the nearest `float64`, ties to even: 53 bits of
significand, the exponent of the last bit not below -1074. Values beyond the largest
`float64` do not arise from the operations of `percentageChange` on `uint64` arguments
with `old` nonzero, whose results lie between 0 and `2 ^ 71`. -/
def roundF64 (q : ℚ) : ℚ :=
  if q = 0 then 0
  else (roundHalfEven (q / pow2 (max (floorLog2 q) (-1022) - 52)) : ℚ)
    * pow2 (max (floorLog2 q) (-1022) - 52)

/-- Integer part of a rational, towards zero: the conversion `int(f)` within range. -/
def truncate (q : ℚ) : Int := if 0 ≤ q then ⌊q⌋ else ⌈q⌉

/-- Value of the local `delta` of `percentageChange`, for `old` nonzero:
`(float64(new - old) / float64(old)) * 100`, the subtraction in `uint64`. -/
def deltaF64 (old new : Nat) : ℚ :=
  roundF64 (roundF64 (roundF64 (((new + 2 ^ 64 - old) % 2 ^ 64 : Nat) : ℚ)
    / roundF64 (old : ℚ)) * 100)

/-- Go `percentageChange` on two `uint64` values, `conv` being the host's `floatToInt`.
For `old = 0` the quotient is an infinity or a NaN, which no `int` represents. -/
def percentageChange (conv : Nat → Nat → Int) (old new : Nat) : Int :=
  if old = 0 then conv old new
  else
    let r : ℚ := roundF64 (100 - (mathRound (deltaF64 old new) : ℚ))
    if r < -(2 ^ 63) ∨ 2 ^ 63 ≤ r then conv old new else truncate r

/-- Value of a string of decimal digits. -/
def digitsValue (ds : List Char) : Int :=
  ds.foldl (fun a c => a * 10 + ((c.toNat : Int) - 48)) 0

/-- Go `strconv.Atoi` for a 64 bit `int`: an optional sign, then one decimal digit or
more, the value within the range of `int`; `none` for an error. -/
def atoi (s : String) : Option Int :=
  let sd : Bool × List Char :=
    match s.data with
    | '-' :: r => (true, r)
    | '+' :: r => (false, r)
    | r => (false, r)
  if sd.2 = [] ∨ sd.2.all Char.isDigit = false then none
  else
    let v : Int := if sd.1 then -digitsValue sd.2 else digitsValue sd.2
    if -(2 ^ 63) ≤ v ∧ v < 2 ^ 63 then some v else none

/-! ## The registry map -/

/-- Go `m[k]` with the comma-ok form. -/
def mapLookup (k : String) : List (String × Workspace) → Option Workspace
  | [] => none
  | e :: m => if e.1 = k then some e.2 else mapLookup k m

/-- Assignment through the pointer that `m[k]` holds. -/
def mapModify (k : String) (f : Workspace → Workspace) :
    List (String × Workspace) → List (String × Workspace)
  | [] => []
  | e :: m => if e.1 = k then (e.1, f e.2) :: m else e :: mapModify k f m

/-- Go `delete(m, k)`. -/
def mapDelete (m : List (String × Workspace)) (k : String) : List (String × Workspace) :=
  m.filter (fun e => decide (e.1 ≠ k))

/-! ## Sorting -/

/-- Method `WorkspaceSlice.Less` on two elements. -/
def Less (a b : Workspace) : Bool := decide (a.LastUsed < b.LastUsed)

/-- Inner loop of the insertion sort of `sort.Sort`: `x` stands to the right of a sorted
run, given from its last element to its first, and is swapped to the left while it is
`Less` than its left neighbour. The result is the new run, again from last to first. -/
def sinkLeft (x : Workspace) : List Workspace → List Workspace
  | [] => [x]
  | y :: ys => if Less x y then y :: sinkLeft x ys else x :: y :: ys

/-- Go `sort.Sort` on a `WorkspaceSlice`, as the insertion sort that the library runs on
short slices. On other slices the library may leave workspaces of equal `LastUsed` in
another order, for it is not stable; its result is still a sorted arrangement of the
slice, and `sortSort` returns every sorted list unchanged (`sortSort_of_sorted`), so each
result of the library is the result here for one of the orders of the map. -/
def sortSort (l : List Workspace) : List Workspace :=
  (l.foldl (fun run x => sinkLeft x run) []).reverse

/-- Go `sortWorkspacesByTime`. -/
def sortWorkspacesByTime (workspaces : List (String × Workspace)) : List Workspace :=
  sortSort (workspaces.map Prod.snd)

/-! ## Primitive services -/

/-- Go `getEnvOrDie`. -/
def getEnvOrDie (h : Host) (name : String) : Option String :=
  if h.getenv name = "" then none else some (h.getenv name)

/-- Go `Stat` that `buidStatOrDie` builds from the result of `syscall.Statfs`. -/
def statOf (fs : Statfs_t) : Stat :=
  { Total := fs.Blocks * toUint64 fs.Bsize % 2 ^ 64,
    Free := fs.Bfree * toUint64 fs.Bsize % 2 ^ 64 }

/-- Go `buidStatOrDie`. -/
def buidStatOrDie (h : Host) (workspace : String) (w : World) : Option (Stat × World) :=
  match h.statfs w.nStat workspace with
  | none => none
  | some fs => some (statOf fs, { w with nStat := w.nStat + 1 })

/-- Go `loadSpecOrDie`. All reads and writes of one run name the same file. -/
def loadSpecOrDie (w : World) : Option Spec := w.file

/-- Go `updateSpecOrDie`. -/
def updateSpecOrDie (h : Host) (path : String) (spec : Spec) (w : World) : Option World :=
  if h.writeFileFails w.writes.length then none
  else some { w with file := some spec,
                     writes := w.writes ++ [(path ++ "/" ++ workspacesSpecFileName, spec)] }

/-- Go `calculateDirecotySizeOrDie`. -/
def calculateDirecotySizeOrDie (h : Host) (path : String) : Option Int := h.walk path

/-- Go `createEmptySpecOrDie`. -/
def createEmptySpecOrDie (h : Host) (path : String) (w : World) : Option World :=
  updateSpecOrDie h path { CreationTime := h.now w.nNow, Workspaces := [] }
    { w with nNow := w.nNow + 1 }

/-- Go `cleanWorkspace`: the error of `os.RemoveAll` is printed and dropped. -/
def cleanWorkspace (h : Host) (path : String) (ws : Workspace) (w : World) : World :=
  { w with removals := w.removals ++
      [(path ++ "/" ++ ws.Key, h.removeAllFails w.removals.length (path ++ "/" ++ ws.Key))] }

/-! ## The cleaning strategies -/

/-- Loop of `cleanPercentageStrategy` over the candidates still to visit. -/
def percentageLoop (h : Host) (path : String) (perecentage : Int) :
    List Workspace → Spec × World → Option (Spec × World)
  | [], st => some st
  | s :: rest, st =>
    match buidStatOrDie h path st.2 with
    | none => none
    | some (stat, w1) =>
      if perecentage > percentageChange h.floatToInt stat.Free stat.Total then
        percentageLoop h path perecentage rest
          ({ st.1 with Workspaces := mapDelete st.1.Workspaces s.Key }, cleanWorkspace h path s w1)
      else percentageLoop h path perecentage rest (st.1, w1)

/-- Go `cleanPercentageStrategy`. -/
def cleanPercentageStrategy (h : Host) (path : String) (st : Spec × World) :
    Option (Spec × World) :=
  match getEnvOrDie h "PERCENTAGE_TO_KEEP_AVAILABLE" with
  | none => none
  | some v =>
    match atoi v with
    | none => none
    | some perecentage =>
      match buidStatOrDie h path st.2 with
      | none => none
      | some (s, w1) =>
        if perecentage > percentageChange h.floatToInt s.Free s.Total then
          match percentageLoop h path perecentage (sortWorkspacesByTime st.1.Workspaces)
              (st.1, w1) with
          | none => none
          | some (spec, w2) => (updateSpecOrDie h path spec w2).map (fun w3 => (spec, w3))
        else some (st.1, w1)

/-- Go `time.Hour * 24 * time.Duration(days)`. -/
def unusedDuration (days : Int) : Int := wrap64 (3600000000000 * 24 * days)

/-- Condition under which `cleanUnusedStrategy` evicts a workspace. -/
def unusedCondition (days : Int) (now : Time) (s : Workspace) : Bool :=
  decide (s.LastUsed + unusedDuration days < now)

/-- Loop of `cleanUnusedStrategy` over the candidates still to visit. -/
def unusedLoop (h : Host) (path : String) (days : Int) (now : Time) :
    List Workspace → Spec × World → Spec × World
  | [], st => st
  | s :: rest, st =>
    if unusedCondition days now s then
      unusedLoop h path days now rest
        ({ st.1 with Workspaces := mapDelete st.1.Workspaces s.Key }, cleanWorkspace h path s st.2)
    else unusedLoop h path days now rest st

/-- Go `cleanUnusedStrategy`. -/
def cleanUnusedStrategy (h : Host) (path : String) (st : Spec × World) :
    Option (Spec × World) :=
  match getEnvOrDie h "UNUSED_N_DAYS" with
  | none => none
  | some v =>
    match atoi v with
    | none => none
    | some days =>
      let r := unusedLoop h path days (h.now st.2.nNow) (sortWorkspacesByTime st.1.Workspaces)
        (st.1, { st.2 with nNow := st.2.nNow + 1 })
      (updateSpecOrDie h path r.1 r.2).map (fun w3 => (r.1, w3))

/-! ## The command dispatcher -/

/-- Go `strings.Split(s, ":")` on the characters of `s`; `cur` holds the characters of
the piece being read, last one first. -/
def splitColon (cur : List Char) : List Char → List String
  | [] => [String.mk cur.reverse]
  | c :: cs => if c = ':' then String.mk cur.reverse :: splitColon [] cs
               else splitColon (c :: cur) cs

/-- Body of the loop over the strategy names in `main`. -/
def applyStrategy (h : Host) (workspace : String) (s : String) (st : Spec × World) :
    Option (Spec × World) :=
  match (if s = cleaningStrategyFreePerecentage then cleanPercentageStrategy h workspace st
         else some st) with
  | none => none
  | some st1 =>
    if s = cleaningStrategyNotUsedAtLeast then cleanUnusedStrategy h workspace st1
    else some st1

/-- Loop over the strategy names in `main`. -/
def cleanLoop (h : Host) (workspace : String) :
    List String → Spec × World → Option (Spec × World)
  | [], st => some st
  | s :: rest, st =>
    match applyStrategy h workspace s st with
    | none => none
    | some st1 => cleanLoop h workspace rest st1

/-- Branch `command == commandClean` of `main`. -/
def clean (h : Host) (workspace : String) (w : World) : Option (Spec × World) :=
  match loadSpecOrDie w with
  | none => none
  | some spec =>
    match getEnvOrDie h "CLEAN_STRATEGY" with
    | none => none
    | some strategy => cleanLoop h workspace (splitColon [] strategy.data) (spec, w)

/-- Registry that the branch `command == commandUpdate` of `main` hands to
`updateSpecOrDie`: `t1` and `t2` are the values of the next two calls of `time.Now()`,
the second of which is made only when the key is new. -/
def upsert (spec : Spec) (key : String) (size : Int) (t1 t2 : Time) : Spec :=
  match mapLookup key spec.Workspaces with
  | none =>
    { spec with Workspaces := spec.Workspaces ++
        [(key, { Key := key, Size := size, LastUsed := t1, CreationTime := t2 })] }
  | some _ =>
    { spec with
      Workspaces := mapModify key (fun s => { s with LastUsed := t1, Size := size })
        spec.Workspaces }

/-- Branch `command == commandUpdate` of `main`. -/
def update (h : Host) (workspace : String) (w : World) : Option World :=
  match loadSpecOrDie w with
  | none => none
  | some spec =>
    match getEnvOrDie h "KEY" with
    | none => none
    | some key =>
      match calculateDirecotySizeOrDie h (workspace ++ "/" ++ key) with
      | none => none
      | some size =>
        updateSpecOrDie h workspace
          (upsert spec key size (h.now w.nNow) (h.now (w.nNow + 1)))
          { w with nNow := w.nNow + (if (mapLookup key spec.Workspaces).isSome then 1 else 2) }

/-- Go `main`: `none` is exit status 1, `some w` exit status 0 in the world `w`. -/
def main (h : Host) (w : World) : Option World :=
  match getEnvOrDie h "COMMAND" with
  | none => none
  | some command =>
    match getEnvOrDie h "WORKSPACE" with
    | none => none
    | some workspace =>
      if command = commandInit then createEmptySpecOrDie h workspace w
      else if command = commandUpdate then update h workspace w
      else if command = commandClean then (clean h workspace w).map Prod.snd
      else some w

/-! ## Vocabulary of the properties -/

/-- Available percentage that the percentage strategy computes from one result of
`syscall.Statfs`: `percentageChange(stat.Free, stat.Total)`. -/
def available (h : Host) (fs : Statfs_t) : Int :=
  percentageChange h.floatToInt (statOf fs).Free (statOf fs).Total

/-- The delta `(new - old) / old * 100` of the specification, in exact arithmetic. -/
def specDelta (old new : Nat) : ℚ := ((new : ℚ) - (old : ℚ)) / (old : ℚ) * 100

/-- The available percentage as the specification writes it,
`round(100 - ((new - old) / old * 100))`: one rounding, of the whole expression. -/
def specAvailable (old new : Nat) : Int := mathRound (100 - specDelta old new)

/-- Candidates, among `cands` visited from the `n`-th `Statfs` call on, whose own reading
`r i` gives an available percentage below the target `p`. -/
def belowTarget (h : Host) (p : Int) (r : Nat → Statfs_t) (n : Nat)
    (cands : List Workspace) : List Workspace :=
  ((cands.enumFrom n).filter (fun c => decide (p > available h (r c.1)))).map Prod.snd

/-- Registry map without the entries of the given workspaces' keys. -/
def withoutKeys (m : List (String × Workspace)) (gone : List Workspace) :
    List (String × Workspace) :=
  m.filter (fun e => decide (e.1 ∉ gone.map Workspace.Key))

/-- A world with the outcomes of its `RemoveAll` calls forgotten. -/
def forgetOutcomes (w : World) : World :=
  { w with removals := w.removals.map (fun c => (c.1, false)) }

/-- A host on which removals always succeed, otherwise `h`. -/
def removalsSucceed (h : Host) : Host :=
  { h with removeAllFails := fun _ _ => false }

/-! ## Concrete runs -/

/-- Environment given as a list of assignments; a variable not listed reads as `""`. -/
def envOf (vars : List (String × String)) (name : String) : String :=
  (vars.lookup name).getD ""

/-- Clock of the concrete runs: one nanosecond per call, from an instant in 2023. -/
def sampleClock (n : Nat) : Time := 1700000000000000000 + n

/-- A host with the given environment and `Statfs` readings on which no call fails. -/
def quietHost (vars : List (String × String)) (readings : Nat → Statfs_t) : Host where
  getenv := envOf vars
  now := sampleClock
  statfs := fun n _ => some (readings n)
  removeAllFails := fun _ _ => false
  writeFileFails := fun _ => false
  walk := fun _ => some 7
  floatToInt := fun _ _ => -(2 ^ 63)

/-- A workspace of one byte with the given key and time of last use. -/
def sampleWorkspace (k : String) (t : Time) : Workspace :=
  { Key := k, Size := 1, LastUsed := t, CreationTime := 0 }

/-- Registry of three workspaces: `a` is the oldest, then `c`, then `b`. -/
def sampleSpec : Spec :=
  { Workspaces := [("b", sampleWorkspace "b" 5), ("a", sampleWorkspace "a" 3),
                   ("c", sampleWorkspace "c" 4)],
    CreationTime := 0 }

/-- World at the start of a run whose `workspace.json` holds `spec`. -/
def freshWorld (spec : Spec) : World :=
  { file := some spec, nNow := 0, nStat := 0, removals := [], writes := [] }

/-- Readings of a file system of 300 blocks of one byte with the given free blocks. -/
def readingOf (free : Nat) : Statfs_t := { Blocks := 300, Bfree := free, Bsize := 1 }

/-- Readings that are low, except for the second one: 150 free of 300 gives the
available percentage 0, 300 free of 300 gives 100. -/
def dipReadings (n : Nat) : Statfs_t := readingOf (if n = 1 then 300 else 150)

/-- Readings that are low twice and high from then on. -/
def risingReadings (n : Nat) : Statfs_t := readingOf (if n < 2 then 150 else 300)

/-- Readings that are high throughout. -/
def highReadings (_ : Nat) : Statfs_t := readingOf 300

/-- Environment of the concrete cleaning runs. -/
def cleanVars : List (String × String) :=
  [("COMMAND", "clean"), ("WORKSPACE", "/w"), ("CLEAN_STRATEGY", "perecentage:unused"),
   ("PERCENTAGE_TO_KEEP_AVAILABLE", "50"), ("UNUSED_N_DAYS", "30")]

/-- Environment of the concrete update runs. -/
def updateVars (key : String) : List (String × String) :=
  [("COMMAND", "update"), ("WORKSPACE", "/w"), ("KEY", key)]

/-- Environment of a run that asks to evict what was unused for 106752 days. -/
def overflowVars : List (String × String) :=
  [("COMMAND", "clean"), ("WORKSPACE", "/w"), ("CLEAN_STRATEGY", "unused"),
   ("UNUSED_N_DAYS", "106752")]

/-- Registry whose only workspace was used one hour before the first clock reading. -/
def recentSpec : Spec :=
  { Workspaces := [("a", sampleWorkspace "a" (sampleClock 0 - 3600000000000))],
    CreationTime := 0 }

/-- A host on which every `RemoveAll` fails, otherwise `quietHost`. -/
def stubbornHost (vars : List (String × String)) (readings : Nat → Statfs_t) : Host :=
  { quietHost vars readings with removeAllFails := fun _ _ => true }

/-- Readings of a file system of 63 blocks of 4096 bytes with 40 blocks free: the `float64`
delta is just below 57.5 and the available percentage is 43. -/
def fortyOfSixtyThree (_ : Nat) : Statfs_t := { Blocks := 63, Bfree := 40, Bsize := 4096 }

/-- Environment of a percentage pass with the target 43. -/
def targetVars : List (String × String) :=
  [("COMMAND", "clean"), ("WORKSPACE", "/w"), ("CLEAN_STRATEGY", "perecentage"),
   ("PERCENTAGE_TO_KEEP_AVAILABLE", "43")]

/-- Readings of a disk of 300 blocks on which the directory of `a` holds 150 and 150 are
free: the percentage pass reads at entry, before `a`, before `c` and before `b`; from
the third reading on the directory of `a` is gone and 300 blocks are free, unless its
removal failed, which frees nothing. -/
def diskReadings (failed : Bool) (n : Nat) : Statfs_t :=
  readingOf (if failed ∨ n < 2 then 150 else 300)

/-- Registry of that disk: `a`, the oldest, holds 150 blocks of one byte, `c` and `b` are
empty. -/
def diskSpec : Spec :=
  { Workspaces :=
      [("b", { Key := "b", Size := 0, LastUsed := 5, CreationTime := 0 }),
       ("a", { Key := "a", Size := 150, LastUsed := 3, CreationTime := 0 }),
       ("c", { Key := "c", Size := 0, LastUsed := 4, CreationTime := 0 })],
    CreationTime := 0 }

/-- The host of that disk: every `RemoveAll` fails or every one succeeds. -/
def diskHost (failed : Bool) : Host :=
  { quietHost cleanVars (diskReadings failed) with removeAllFails := fun _ _ => failed }

/-! ## Sorting: `sortWorkspacesByTime` -/

theorem sinkLeft_perm (x : Workspace) (run : List Workspace) :
    (sinkLeft x run).Perm (x :: run) := by
  induction run with
  | nil => simp [sinkLeft]
  | cons y ys ih =>
    unfold sinkLeft
    split
    · exact (List.Perm.cons y ih).trans (List.Perm.swap x y ys)
    · exact List.Perm.refl _

theorem foldl_sinkLeft_perm (l run : List Workspace) :
    (l.foldl (fun run x => sinkLeft x run) run).Perm (l ++ run) := by
  induction l generalizing run with
  | nil => simp
  | cons x xs ih =>
    simp only [List.foldl_cons, List.cons_append]
    refine (ih (sinkLeft x run)).trans ?_
    refine (List.Perm.append_left xs (sinkLeft_perm x run)).trans ?_
    exact List.perm_middle

theorem sortSort_perm (l : List Workspace) : (sortSort l).Perm l := by
  unfold sortSort
  refine (List.reverse_perm _).trans ?_
  simpa using foldl_sinkLeft_perm l []

theorem sinkLeft_descending (x : Workspace) (run : List Workspace)
    (hrun : run.Pairwise (fun a b => b.LastUsed ≤ a.LastUsed)) :
    (sinkLeft x run).Pairwise (fun a b => b.LastUsed ≤ a.LastUsed) := by
  induction run with
  | nil => simp [sinkLeft]
  | cons y ys ih =>
    rw [List.pairwise_cons] at hrun
    unfold sinkLeft
    by_cases hxy : x.LastUsed < y.LastUsed
    · simp only [Less, hxy, decide_True, if_true, List.pairwise_cons]
      refine ⟨?_, ih hrun.2⟩
      intro z hz
      rcases List.mem_cons.1 ((sinkLeft_perm x ys).mem_iff.1 hz) with rfl | hz
      · exact le_of_lt hxy
      · exact hrun.1 z hz
    · simp only [Less, hxy, decide_False, List.pairwise_cons]
      simp only [Bool.false_eq_true, if_false, List.pairwise_cons]
      refine ⟨?_, hrun.1, hrun.2⟩
      intro z hz
      rcases List.mem_cons.1 hz with rfl | hz
      · exact not_lt.1 hxy
      · exact le_trans (hrun.1 z hz) (not_lt.1 hxy)

theorem foldl_sinkLeft_descending (l run : List Workspace)
    (hrun : run.Pairwise (fun a b => b.LastUsed ≤ a.LastUsed)) :
    (l.foldl (fun run x => sinkLeft x run) run).Pairwise
      (fun a b => b.LastUsed ≤ a.LastUsed) := by
  induction l generalizing run with
  | nil => simpa using hrun
  | cons x xs ih => exact ih _ (sinkLeft_descending x run hrun)

theorem sortSort_sorted (l : List Workspace) :
    (sortSort l).Pairwise (fun a b => a.LastUsed ≤ b.LastUsed) := by
  unfold sortSort
  rw [List.pairwise_reverse]
  exact foldl_sinkLeft_descending l [] List.Pairwise.nil

theorem foldl_sinkLeft_of_sorted (l run : List Workspace)
    (hl : l.Pairwise (fun a b => a.LastUsed ≤ b.LastUsed))
    (hrun : ∀ a ∈ run, ∀ b ∈ l, a.LastUsed ≤ b.LastUsed) :
    l.foldl (fun run x => sinkLeft x run) run = l.reverse ++ run := by
  induction l generalizing run with
  | nil => simp
  | cons x xs ih =>
    rw [List.pairwise_cons] at hl
    have hx : sinkLeft x run = x :: run := by
      cases run with
      | nil => rfl
      | cons y ys =>
        have : ¬ x.LastUsed < y.LastUsed :=
          not_lt.2 (hrun y (List.mem_cons_self _ _) x (List.mem_cons_self _ _))
        simp [sinkLeft, Less, this]
    simp only [List.foldl_cons, hx, List.reverse_cons, List.append_assoc, List.singleton_append]
    apply ih _ hl.2
    intro a ha b hb
    rcases List.mem_cons.1 ha with rfl | ha
    · exact hl.1 b hb
    · exact hrun a ha b (List.mem_cons_of_mem _ hb)

theorem sortSort_of_sorted (l : List Workspace)
    (hl : l.Pairwise (fun a b => a.LastUsed ≤ b.LastUsed)) : sortSort l = l := by
  unfold sortSort
  rw [foldl_sinkLeft_of_sorted l [] hl (by simp)]
  simp

/-- C10: `sortWorkspacesByTime` returns a list that holds each workspace of the map exactly
once (it is a permutation of the map's values) and is in ascending order of `LastUsed`:
for every element `a` that precedes an element `b`, the `LastUsed` of `b` is not strictly
before the `LastUsed` of `a` (and so `a.LastUsed ≤ b.LastUsed`). -/
theorem sortWorkspacesByTime_sorted_perm (workspaces : List (String × Workspace)) :
    (sortWorkspacesByTime workspaces).Perm (workspaces.map Prod.snd) ∧
    (sortWorkspacesByTime workspaces).Pairwise (fun a b => ¬ b.LastUsed < a.LastUsed) ∧
    (sortWorkspacesByTime workspaces).Pairwise (fun a b => a.LastUsed ≤ b.LastUsed) := by
  refine ⟨sortSort_perm _, ?_, sortSort_sorted _⟩
  refine (sortSort_sorted (workspaces.map Prod.snd)).imp ?_
  intro a b hab
  exact not_lt.2 hab

/-! ## The available percentage: `percentageChange` -/

theorem log2Fuel_eq (fuel : Nat) : ∀ n : Nat, n ≤ fuel → log2Fuel fuel n = Nat.log2 n := by
  induction fuel with
  | zero =>
    intro n hn
    have h0 : n = 0 := by omega
    subst h0
    rw [Nat.log2]; simp [log2Fuel]
  | succ f ih =>
    intro n hn
    rw [log2Fuel, Nat.log2]
    by_cases h2 : n < 2
    · rw [if_pos h2, if_neg (by omega)]
    · rw [if_neg h2, if_pos (by omega), ih (n / 2) (by omega)]

theorem natLog2_eq (n : Nat) : natLog2 n = Nat.log2 n := log2Fuel_eq n n (le_refl n)

theorem natLog2_le (n : Nat) (hn : n ≠ 0) : 2 ^ natLog2 n ≤ n := by
  rw [natLog2_eq]; exact Nat.log2_self_le hn

theorem natLog2_lt (n : Nat) : n < 2 ^ (natLog2 n + 1) := by
  rw [natLog2_eq]; exact Nat.lt_log2_self

theorem pow2_eq (e : Int) : pow2 e = (2 : ℚ) ^ e := by
  unfold pow2
  by_cases he : 0 ≤ e
  · rw [if_pos he]
    obtain ⟨n, rfl⟩ := Int.eq_ofNat_of_zero_le he
    simp
  · rw [if_neg he]
    obtain ⟨n, hn⟩ := Int.eq_ofNat_of_zero_le (show 0 ≤ -e by omega)
    have he2 : e = -(n : Int) := by omega
    subst he2
    simp

theorem pow2_pos (e : Int) : 0 < pow2 e := by
  rw [pow2_eq]; exact zpow_pos (by norm_num) e

theorem pow2_add (a b : Int) : pow2 (a + b) = pow2 a * pow2 b := by
  rw [pow2_eq, pow2_eq, pow2_eq, zpow_add₀ (by norm_num)]

theorem pow2_le (a b : Int) (h : a ≤ b) : pow2 a ≤ pow2 b := by
  rw [pow2_eq, pow2_eq]; exact zpow_le_zpow_right₀ (by norm_num) h

theorem pow2_lt_iff (a b : Int) : pow2 a < pow2 b ↔ a < b := by
  rw [pow2_eq, pow2_eq]; exact zpow_lt_zpow_iff_right₀ (by norm_num)

theorem pow2_natCast (n : Nat) : pow2 (n : Int) = (2 : ℚ) ^ n := by
  rw [pow2_eq, zpow_natCast]

theorem floorLog2_bounds (q : ℚ) (hq : q ≠ 0) :
    pow2 (floorLog2 q) ≤ |q| ∧ |q| < pow2 (floorLog2 q + 1) := by
  have hnum : q.num.natAbs ≠ 0 := by
    simpa [Int.natAbs_eq_zero] using hq
  have ha1 := natLog2_le q.num.natAbs hnum
  have ha2 := natLog2_lt q.num.natAbs
  have hb1 := natLog2_le q.den q.den_nz
  have hb2 := natLog2_lt q.den
  have hden : (0 : ℚ) < (q.den : ℚ) := by exact_mod_cast q.den_pos
  have habs : |q| = (q.num.natAbs : ℚ) / (q.den : ℚ) := by
    conv_lhs => rw [← Rat.num_div_den q]
    rw [abs_div, abs_of_pos hden, Nat.cast_natAbs, Int.cast_abs]
  have ha1q : (2 : ℚ) ^ natLog2 q.num.natAbs ≤ (q.num.natAbs : ℚ) := by exact_mod_cast ha1
  have ha2q : (q.num.natAbs : ℚ) < (2 : ℚ) ^ (natLog2 q.num.natAbs + 1) := by
    exact_mod_cast ha2
  have hb1q : (2 : ℚ) ^ natLog2 q.den ≤ (q.den : ℚ) := by exact_mod_cast hb1
  have hb2q : (q.den : ℚ) < (2 : ℚ) ^ (natLog2 q.den + 1) := by exact_mod_cast hb2
  -- bounds of |q| around 2 ^ e0
  have hpa : (0 : ℚ) < (2 : ℚ) ^ natLog2 q.num.natAbs := by positivity
  have hpb : (0 : ℚ) < (2 : ℚ) ^ natLog2 q.den := by positivity
  have hlow : pow2 ((natLog2 q.num.natAbs : Int) - (natLog2 q.den : Int) - 1) < |q| := by
    rw [habs, lt_div_iff₀ hden]
    have : pow2 ((natLog2 q.num.natAbs : Int) - (natLog2 q.den : Int) - 1)
        * (2 : ℚ) ^ (natLog2 q.den + 1) = (2 : ℚ) ^ natLog2 q.num.natAbs := by
      rw [← pow2_natCast, ← pow2_natCast, ← pow2_add]
      congr 1
      push_cast
      ring
    have hpp := pow2_pos ((natLog2 q.num.natAbs : Int) - (natLog2 q.den : Int) - 1)
    calc pow2 ((natLog2 q.num.natAbs : Int) - (natLog2 q.den : Int) - 1) * (q.den : ℚ)
        < pow2 ((natLog2 q.num.natAbs : Int) - (natLog2 q.den : Int) - 1)
            * (2 : ℚ) ^ (natLog2 q.den + 1) := by
          exact mul_lt_mul_of_pos_left hb2q hpp
      _ = (2 : ℚ) ^ natLog2 q.num.natAbs := this
      _ ≤ (q.num.natAbs : ℚ) := ha1q
  have hhigh : |q| < pow2 ((natLog2 q.num.natAbs : Int) - (natLog2 q.den : Int) + 1) := by
    rw [habs, div_lt_iff₀ hden]
    have : pow2 ((natLog2 q.num.natAbs : Int) - (natLog2 q.den : Int) + 1)
        * (2 : ℚ) ^ (natLog2 q.den) = (2 : ℚ) ^ (natLog2 q.num.natAbs + 1) := by
      rw [← pow2_natCast, ← pow2_natCast, ← pow2_add]
      congr 1
      push_cast
      ring
    have hpp := pow2_pos ((natLog2 q.num.natAbs : Int) - (natLog2 q.den : Int) + 1)
    calc (q.num.natAbs : ℚ) < (2 : ℚ) ^ (natLog2 q.num.natAbs + 1) := ha2q
      _ = pow2 ((natLog2 q.num.natAbs : Int) - (natLog2 q.den : Int) + 1)
            * (2 : ℚ) ^ (natLog2 q.den) := this.symm
      _ ≤ pow2 ((natLog2 q.num.natAbs : Int) - (natLog2 q.den : Int) + 1) * (q.den : ℚ) :=
          mul_le_mul_of_nonneg_left hb1q (le_of_lt hpp)
  unfold floorLog2
  simp only
  split
  · rename_i hlt
    refine ⟨le_of_lt hlow, ?_⟩
    simpa using hlt
  · rename_i hge
    exact ⟨not_lt.1 hge, hhigh⟩

theorem floorLog2_ge (q : ℚ) (hq : q ≠ 0) (a : Int) (ha : pow2 a ≤ |q|) : a ≤ floorLog2 q := by
  have h := (floorLog2_bounds q hq).2
  have : pow2 a < pow2 (floorLog2 q + 1) := lt_of_le_of_lt ha h
  rw [pow2_lt_iff] at this
  omega

theorem floorLog2_lt (q : ℚ) (hq : q ≠ 0) (b : Int) (hb : |q| < pow2 b) : floorLog2 q < b := by
  have h := (floorLog2_bounds q hq).1
  have : pow2 (floorLog2 q) < pow2 b := lt_of_le_of_lt h hb
  rwa [pow2_lt_iff] at this

theorem roundHalfEven_near (q : ℚ) : |((roundHalfEven q : Int) : ℚ) - q| ≤ 1 / 2 := by
  have h1 := Int.floor_le q
  have h2 := Int.lt_floor_add_one q
  unfold roundHalfEven
  rw [abs_le]
  split
  · constructor <;> linarith
  · split
    · push_cast; constructor <;> linarith
    · split
      · constructor <;> linarith
      · push_cast; constructor <;> linarith

theorem roundHalfEven_intCast (z : Int) : roundHalfEven (z : ℚ) = z := by
  unfold roundHalfEven
  simp

theorem roundF64_near (q : ℚ) (hq : q ≠ 0) (he : -1022 ≤ floorLog2 q) :
    |roundF64 q - q| ≤ |q| / 2 ^ 53 := by
  have hb := (floorLog2_bounds q hq).1
  unfold roundF64
  rw [if_neg hq, max_eq_left he]
  have hulp := pow2_pos (floorLog2 q - 52)
  have hnear := roundHalfEven_near (q / pow2 (floorLog2 q - 52))
  have hsplit : pow2 (floorLog2 q) = pow2 (floorLog2 q - 52) * 2 ^ 52 := by
    have : floorLog2 q = (floorLog2 q - 52) + ((52 : Nat) : Int) := by push_cast; ring
    conv_lhs => rw [this, pow2_add, pow2_natCast]
  have heq : ((roundHalfEven (q / pow2 (floorLog2 q - 52)) : Int) : ℚ) * pow2 (floorLog2 q - 52) - q
      = (((roundHalfEven (q / pow2 (floorLog2 q - 52)) : Int) : ℚ) - q / pow2 (floorLog2 q - 52))
        * pow2 (floorLog2 q - 52) := by
    field_simp
  rw [heq, abs_mul, abs_of_pos hulp]
  calc |((roundHalfEven (q / pow2 (floorLog2 q - 52)) : Int) : ℚ) - q / pow2 (floorLog2 q - 52)|
        * pow2 (floorLog2 q - 52)
      ≤ 1 / 2 * pow2 (floorLog2 q - 52) := mul_le_mul_of_nonneg_right hnear (le_of_lt hulp)
    _ = pow2 (floorLog2 q) / 2 ^ 53 := by rw [hsplit]; ring
    _ ≤ |q| / 2 ^ 53 := by
        apply div_le_div_of_nonneg_right hb
        positivity

theorem roundF64_zero : roundF64 0 = 0 := by simp [roundF64]

theorem roundF64_bounds (q : ℚ) (hq : 0 < q) (hn : pow2 (-1022) ≤ q) :
    (1 - 1 / 2 ^ 53) * q ≤ roundF64 q ∧ roundF64 q ≤ (1 + 1 / 2 ^ 53) * q := by
  have hne : q ≠ 0 := ne_of_gt hq
  have he : -1022 ≤ floorLog2 q := floorLog2_ge q hne _ (by rwa [abs_of_pos hq])
  have h := roundF64_near q hne he
  rw [abs_of_pos hq, abs_le] at h
  constructor <;> linarith [h.1, h.2]

theorem roundF64_intCast (z : Int) (hz : |z| < 2 ^ 53) : roundF64 (z : ℚ) = z := by
  by_cases h0 : z = 0
  · subst h0; simp [roundF64]
  have hq : ((z : Int) : ℚ) ≠ 0 := by exact_mod_cast h0
  have habs1 : (1 : ℚ) ≤ |(z : ℚ)| := by
    have : (1 : Int) ≤ |z| := Int.one_le_abs h0
    exact_mod_cast this
  have hlo : (0 : Int) ≤ floorLog2 (z : ℚ) :=
    floorLog2_ge _ hq 0 (by simpa [pow2] using habs1)
  have hhi : floorLog2 (z : ℚ) < 53 := by
    apply floorLog2_lt _ hq
    have : ((|z| : Int) : ℚ) < ((2 ^ 53 : Int) : ℚ) := by exact_mod_cast hz
    rw [show (53 : Int) = ((53 : Nat) : Int) by rfl, pow2_natCast]
    push_cast at this
    exact this
  unfold roundF64
  rw [if_neg hq, max_eq_left (by omega)]
  obtain ⟨k, hk⟩ := Int.eq_ofNat_of_zero_le (show 0 ≤ 52 - floorLog2 (z : ℚ) by omega)
  have hulp : pow2 (floorLog2 (z : ℚ) - 52) = 1 / (2 : ℚ) ^ k := by
    have : floorLog2 (z : ℚ) - 52 = -(k : Int) := by omega
    rw [this, pow2_eq, zpow_neg, zpow_natCast, one_div]
  rw [hulp]
  have hcast : (z : ℚ) / (1 / (2 : ℚ) ^ k) = ((z * 2 ^ k : Int) : ℚ) := by
    push_cast; field_simp
  rw [hcast, roundHalfEven_intCast]
  push_cast
  field_simp

theorem quotient_bounds (D o a b : ℚ) (hD : 0 < D) (ho : 0 < o)
    (ha : (1 - 1 / 2 ^ 53) * D ≤ a ∧ a ≤ (1 + 1 / 2 ^ 53) * D)
    (hb : (1 - 1 / 2 ^ 53) * o ≤ b ∧ b ≤ (1 + 1 / 2 ^ 53) * o) :
    (9007199254740991 / 9007199254740993 : ℚ) * (D / o) ≤ a / b ∧
    a / b ≤ (9007199254740993 / 9007199254740991 : ℚ) * (D / o) := by
  have hX : 0 < D / o := div_pos hD ho
  have hXo : D / o * o = D := by field_simp
  have hbpos : 0 < b := by
    have : (0 : ℚ) < (1 - 1 / 2 ^ 53) * o := mul_pos (by norm_num) ho
    linarith [hb.1]
  have h1 : D / o * ((1 - 1 / 2 ^ 53) * o) ≤ D / o * b :=
    mul_le_mul_of_nonneg_left hb.1 (le_of_lt hX)
  have h2 : D / o * b ≤ D / o * ((1 + 1 / 2 ^ 53) * o) :=
    mul_le_mul_of_nonneg_left hb.2 (le_of_lt hX)
  have h1e : D / o * ((1 - 1 / 2 ^ 53) * o) = (1 - 1 / 2 ^ 53) * D := by
    rw [mul_left_comm, hXo]
  have h2e : D / o * ((1 + 1 / 2 ^ 53) * o) = (1 + 1 / 2 ^ 53) * D := by
    rw [mul_left_comm, hXo]
  rw [h1e] at h1
  rw [h2e] at h2
  constructor
  · rw [le_div_iff₀ hbpos]
    have : (9007199254740991 / 9007199254740993 : ℚ) * (D / o) * b
        = (9007199254740991 / 9007199254740993 : ℚ) * (D / o * b) := by ring
    rw [this]
    have h3 := ha.1
    norm_num at h2 h3 ⊢
    linarith
  · rw [div_le_iff₀ hbpos]
    have : (9007199254740993 / 9007199254740991 : ℚ) * (D / o) * b
        = (9007199254740993 / 9007199254740991 : ℚ) * (D / o * b) := by ring
    rw [this]
    have h3 := ha.2
    norm_num at h1 h3 ⊢
    linarith

theorem relative_chain (D o a b q d : ℚ) (hD : 0 < D) (ho : 0 < o)
    (ha : (1 - 1 / 2 ^ 53) * D ≤ a ∧ a ≤ (1 + 1 / 2 ^ 53) * D)
    (hb : (1 - 1 / 2 ^ 53) * o ≤ b ∧ b ≤ (1 + 1 / 2 ^ 53) * o)
    (hq : (1 - 1 / 2 ^ 53) * (a / b) ≤ q ∧ q ≤ (1 + 1 / 2 ^ 53) * (a / b))
    (hd : (1 - 1 / 2 ^ 53) * (q * 100) ≤ d ∧ d ≤ (1 + 1 / 2 ^ 53) * (q * 100)) :
    |d - D / o * 100| ≤ D / o * 100 / 2 ^ 50 := by
  have hX : 0 < D / o := div_pos hD ho
  obtain ⟨hlo, hup⟩ := quotient_bounds D o a b hD ho ha hb
  obtain ⟨hq1, hq2⟩ := hq
  obtain ⟨hd1, hd2⟩ := hd
  rw [abs_le]
  norm_num at hq1 hq2 hd1 hd2 ⊢
  constructor <;> linarith

theorem pow2_neg_natCast (n : Nat) : pow2 (-(n : Int)) = 1 / 2 ^ n := by
  rw [pow2_eq, zpow_neg, zpow_natCast, one_div]

theorem pow2_subnormal_le : pow2 (-1022) ≤ 1 / 2 ^ 70 := by
  have h := pow2_le (-1022) (-((70 : Nat) : Int)) (by norm_num)
  rwa [pow2_neg_natCast] at h

theorem truncate_intCast (z : Int) : truncate (z : ℚ) = z := by
  unfold truncate
  split <;> simp

theorem mathRound_nonneg_near (d : ℚ) (hd : 0 ≤ d) :
    0 ≤ mathRound d ∧ |((mathRound d : Int) : ℚ) - d| ≤ 1 / 2 := by
  have h1 := Int.floor_le (d + 1 / 2)
  have h2 := Int.lt_floor_add_one (d + 1 / 2)
  unfold mathRound
  rw [if_pos hd]
  refine ⟨Int.floor_nonneg.2 (by linarith), ?_⟩
  rw [abs_le]
  constructor <;> linarith

theorem deltaF64_near (old new : Nat) (h0 : 0 < old) (h1 : old ≤ new) (h2 : new < 2 ^ 64) :
    0 ≤ deltaF64 old new ∧
    |deltaF64 old new - specDelta old new| ≤ specDelta old new / 2 ^ 50 := by
  have hwrap : (new + 2 ^ 64 - old) % 2 ^ 64 = new - old := by omega
  have hold : (0 : ℚ) < (old : ℚ) := by exact_mod_cast h0
  have hsub : ((new - old : Nat) : ℚ) = (new : ℚ) - (old : ℚ) := Nat.cast_sub h1
  unfold deltaF64
  rw [hwrap]
  by_cases hD0 : new - old = 0
  · have hs : specDelta old new = 0 := by
      unfold specDelta
      rw [← hsub, hD0]; simp
    rw [hD0, hs]
    simp [roundF64_zero]
  · have hDpos : (0 : ℚ) < ((new - old : Nat) : ℚ) := by
      exact_mod_cast Nat.pos_of_ne_zero hD0
    have hD1 : (1 : ℚ) ≤ ((new - old : Nat) : ℚ) := by
      exact_mod_cast Nat.pos_of_ne_zero hD0
    have hold1 : (1 : ℚ) ≤ (old : ℚ) := by exact_mod_cast h0
    have holdlt : (old : ℚ) < 2 ^ 64 := by
      have : old < 2 ^ 64 := by omega
      exact_mod_cast this
    have hsn := pow2_subnormal_le
    have ha := roundF64_bounds ((new - old : Nat) : ℚ) hDpos (by linarith [show (1:ℚ) / 2 ^ 70 ≤ 1 by norm_num])
    have hb := roundF64_bounds (old : ℚ) hold (by linarith [show (1:ℚ) / 2 ^ 70 ≤ 1 by norm_num])
    have hqb := quotient_bounds _ _ _ _ hDpos hold ha hb
    have hX : (1 : ℚ) / 2 ^ 64 ≤ ((new - old : Nat) : ℚ) / (old : ℚ) := by
      rw [le_div_iff₀ hold]
      have : (1 : ℚ) / 2 ^ 64 * (old : ℚ) ≤ 1 := by
        have := mul_le_mul_of_nonneg_left (le_of_lt holdlt) (show (0:ℚ) ≤ 1 / 2 ^ 64 by norm_num)
        norm_num at this ⊢
        linarith
      linarith
    have hq0 : (1 : ℚ) / 2 ^ 65 ≤
        roundF64 ((new - old : Nat) : ℚ) / roundF64 (old : ℚ) := by
      have := hqb.1
      norm_num at this hX ⊢
      linarith
    have hq := roundF64_bounds (roundF64 ((new - old : Nat) : ℚ) / roundF64 (old : ℚ))
      (by linarith [show (0:ℚ) < 1 / 2 ^ 65 by norm_num])
      (by linarith [show (1:ℚ) / 2 ^ 70 ≤ 1 / 2 ^ 65 by norm_num])
    have hq1 : (1 : ℚ) / 2 ^ 66 ≤
        roundF64 (roundF64 ((new - old : Nat) : ℚ) / roundF64 (old : ℚ)) := by
      have := hq.1
      norm_num at this hq0 ⊢
      linarith
    have hd := roundF64_bounds
      (roundF64 (roundF64 ((new - old : Nat) : ℚ) / roundF64 (old : ℚ)) * 100)
      (by linarith [show (0:ℚ) < 1 / 2 ^ 66 by norm_num])
      (by linarith [show (1:ℚ) / 2 ^ 70 ≤ 1 / 2 ^ 66 by norm_num])
    have hchain := relative_chain _ _ _ _ _ _ hDpos hold ha hb hq hd
    have hs : specDelta old new = ((new - old : Nat) : ℚ) / (old : ℚ) * 100 := by
      unfold specDelta; rw [hsub]
    rw [hs]
    refine ⟨?_, hchain⟩
    have := hd.1
    norm_num at this hq1 ⊢
    linarith

theorem specDelta_nonneg (old new : Nat) (h1 : old ≤ new) : 0 ≤ specDelta old new := by
  unfold specDelta
  have h : (old : ℚ) ≤ (new : ℚ) := by exact_mod_cast h1
  have h0 : (0 : ℚ) ≤ (old : ℚ) := by positivity
  have : 0 ≤ ((new : ℚ) - (old : ℚ)) / (old : ℚ) := div_nonneg (by linarith) h0
  linarith

theorem specDelta_le (old new : Nat) (h0 : 0 < old) (h1 : old ≤ new)
    (h3 : 100 * (new - old) ≤ 2 ^ 49 * old) : specDelta old new ≤ 2 ^ 49 := by
  unfold specDelta
  have hold : (0 : ℚ) < (old : ℚ) := by exact_mod_cast h0
  have h3q : ((100 * (new - old) : Nat) : ℚ) ≤ ((2 ^ 49 * old : Nat) : ℚ) := by exact_mod_cast h3
  rw [Nat.cast_mul, Nat.cast_mul, Nat.cast_sub h1] at h3q
  rw [div_mul_eq_mul_div, div_le_iff₀ hold]
  push_cast at h3q
  linarith

theorem percentageChange_eq_sub_round (conv : Nat → Nat → Int) (old new : Nat)
    (h0 : 0 < old) (h1 : old ≤ new) (h2 : new < 2 ^ 64)
    (h3 : 100 * (new - old) ≤ 2 ^ 49 * old) :
    percentageChange conv old new = 100 - mathRound (deltaF64 old new) := by
  obtain ⟨hd0, hdn⟩ := deltaF64_near old new h0 h1 h2
  have hs0 := specDelta_nonneg old new h1
  have hs1 := specDelta_le old new h0 h1 h3
  obtain ⟨hR0, hRn⟩ := mathRound_nonneg_near (deltaF64 old new) hd0
  rw [abs_le] at hdn hRn
  have hRq : ((mathRound (deltaF64 old new) : Int) : ℚ) < ((2 ^ 50 : Int) : ℚ) := by
    push_cast
    have : specDelta old new / 2 ^ 50 ≤ 1 / 2 := by
      rw [div_le_iff₀ (by norm_num)]
      norm_num at hs1 ⊢
      linarith
    norm_num at hs1 ⊢
    linarith [hdn.2, hRn.2]
  have hR : mathRound (deltaF64 old new) < 2 ^ 50 := by exact_mod_cast hRq
  have habs : |(100 : Int) - mathRound (deltaF64 old new)| < 2 ^ 53 := by
    rw [abs_lt]; constructor <;> omega
  have hcast : (100 : ℚ) - ((mathRound (deltaF64 old new) : Int) : ℚ)
      = (((100 : Int) - mathRound (deltaF64 old new) : Int) : ℚ) := by push_cast; ring
  unfold percentageChange
  rw [if_neg (Nat.pos_iff_ne_zero.1 h0)]
  simp only [hcast, roundF64_intCast _ habs, truncate_intCast]
  rw [if_neg]
  rw [not_or]
  constructor
  · rw [not_lt]
    have : ((-(2 ^ 63) : Int) : ℚ) ≤ (((100 : Int) - mathRound (deltaF64 old new) : Int) : ℚ) := by
      exact_mod_cast (show (-(2 ^ 63) : Int) ≤ 100 - mathRound (deltaF64 old new) by omega)
    push_cast at this ⊢
    exact this
  · rw [not_le]
    have : (((100 : Int) - mathRound (deltaF64 old new) : Int) : ℚ) < ((2 ^ 63 : Int) : ℚ) := by
      exact_mod_cast (show (100 : Int) - mathRound (deltaF64 old new) < 2 ^ 63 by omega)
    push_cast at this ⊢
    exact this

/-- C9, as the code has it: for `0 < old ≤ new` (both `uint64`) with
`100 * (new - old) ≤ 2 ^ 49 * old`, `percentageChange old new` is
`100 - round(delta)`, where `delta` is `(new - old) / old * 100` as `float64` computes it
(`deltaF64`: the two conversions, the division and the multiplication each rounded to
the nearest `float64`) and `round`, halves away from zero, is applied to `delta` alone.
The computed `delta` is within the exact one divided by `2 ^ 50` of the exact one, so
the result is within `1 / 2` plus that much of the exact `100 - (new - old) / old * 100`. -/
theorem percentageChange_rounds_delta (conv : Nat → Nat → Int) (old new : Nat)
    (h0 : 0 < old) (h1 : old ≤ new) (h2 : new < 2 ^ 64)
    (h3 : 100 * (new - old) ≤ 2 ^ 49 * old) :
    percentageChange conv old new = 100 - mathRound (deltaF64 old new) ∧
    |deltaF64 old new - specDelta old new| ≤ specDelta old new / 2 ^ 50 ∧
    |((percentageChange conv old new : Int) : ℚ) - (100 - specDelta old new)|
      ≤ 1 / 2 + specDelta old new / 2 ^ 50 := by
  obtain ⟨hd0, hdn⟩ := deltaF64_near old new h0 h1 h2
  have hc := percentageChange_eq_sub_round conv old new h0 h1 h2 h3
  obtain ⟨-, hRn⟩ := mathRound_nonneg_near (deltaF64 old new) hd0
  refine ⟨hc, hdn, ?_⟩
  rw [hc]
  rw [abs_le] at hdn hRn ⊢
  push_cast
  constructor <;> linarith [hdn.1, hdn.2, hRn.1, hRn.2]

/-- Witness of `percentageChange_rounds_delta`: 40 bytes free of 63, where the computed
delta lies just below the exact 57.5 and the result is 43. -/
theorem percentageChange_rounds_delta_witness :
    (percentageChange (fun _ _ => 0) 40 63 = 100 - mathRound (deltaF64 40 63) ∧
    |deltaF64 40 63 - specDelta 40 63| ≤ specDelta 40 63 / 2 ^ 50 ∧
    |((percentageChange (fun _ _ => 0) 40 63 : Int) : ℚ) - (100 - specDelta 40 63)|
      ≤ 1 / 2 + specDelta 40 63 / 2 ^ 50) ∧
    percentageChange (fun _ _ => 0) 40 63 = 43 ∧ mathRound (deltaF64 40 63) = 57 :=
  ⟨percentageChange_rounds_delta (fun _ _ => 0) 40 63 (by decide) (by decide) (by decide)
    (by decide), by decide!, by decide!⟩

/-- C9 fails as stated: with 8 bytes free of 9 every `float64` operation is exact, the
delta is 12.5, the code returns `100 - round(12.5) = 87`, and the whole expression
`100 - 12.5 = 87.5` rounds to 88, be it with the halves away from zero or with the halves
up. -/
theorem percentageChange_not_rounded_whole :
    percentageChange (fun _ _ => 0) 8 9 = 87 ∧ deltaF64 8 9 = 25 / 2 ∧
    specDelta 8 9 = 25 / 2 ∧ specAvailable 8 9 = 88 ∧ round (100 - specDelta 8 9) = 88 := by
  refine ⟨by decide!, by decide!, ?_, ?_, ?_⟩
  · norm_num [specDelta]
  · norm_num [specAvailable, specDelta, mathRound, Int.floor_eq_iff]
  · norm_num [specDelta, round_eq, Int.floor_eq_iff]

/-- Values of `percentageChange` on which `float64` and exact arithmetic part: 40 of 63
gives 43 (the exact delta 57.5 would give 42), and 8112437862178471936 of
14561825962610356224 gives 20 (exact arithmetic would give 21). -/
theorem percentageChange_float_samples :
    percentageChange (fun _ _ => 0) 40 63 = 43 ∧
    100 - mathRound (specDelta 40 63) = 42 ∧
    percentageChange (fun _ _ => 0) 8112437862178471936 14561825962610356224 = 20 ∧
    100 - mathRound (specDelta 8112437862178471936 14561825962610356224) = 21 := by
  refine ⟨by decide!, ?_, by decide!, ?_⟩
  · norm_num [specDelta, mathRound, Int.floor_eq_iff]
  · norm_num [specDelta, mathRound, Int.floor_eq_iff]

/-! ## The registry map and the `update` command -/

theorem mapLookup_append_new (k : String) (v : Workspace) (m : List (String × Workspace))
    (hk : mapLookup k m = none) : mapLookup k (m ++ [(k, v)]) = some v := by
  induction m with
  | nil => simp [mapLookup]
  | cons e m ih =>
    by_cases he : e.1 = k
    · simp [mapLookup, he] at hk
    · simp only [mapLookup, he, if_false] at hk
      simp [mapLookup, he, ih hk]

theorem mapLookup_append_other (k k2 : String) (v : Workspace) (m : List (String × Workspace))
    (hne : k2 ≠ k) : mapLookup k2 (m ++ [(k, v)]) = mapLookup k2 m := by
  induction m with
  | nil => simp [mapLookup, Ne.symm hne]
  | cons e m ih =>
    by_cases he : e.1 = k2
    · simp [mapLookup, he]
    · simp [mapLookup, he, ih]

theorem mapLookup_mapModify_self (k : String) (f : Workspace → Workspace) (s : Workspace)
    (m : List (String × Workspace)) (hk : mapLookup k m = some s) :
    mapLookup k (mapModify k f m) = some (f s) := by
  induction m with
  | nil => simp [mapLookup] at hk
  | cons e m ih =>
    by_cases he : e.1 = k
    · simp only [mapLookup, he, if_true, Option.some.injEq] at hk
      simp [mapModify, mapLookup, he, hk]
    · simp only [mapLookup, he, if_false] at hk
      simp [mapModify, mapLookup, he, ih hk]

theorem mapLookup_mapModify_other (k k2 : String) (f : Workspace → Workspace)
    (m : List (String × Workspace)) (hne : k2 ≠ k) :
    mapLookup k2 (mapModify k f m) = mapLookup k2 m := by
  induction m with
  | nil => simp [mapModify]
  | cons e m ih =>
    by_cases he : e.1 = k
    · have : ¬ e.1 = k2 := by rw [he]; exact Ne.symm hne
      simp [mapModify, mapLookup, he, Ne.symm hne]
    · by_cases he2 : e.1 = k2
      · subst he2
        simp [mapModify, mapLookup, he]
      · simp [mapModify, mapLookup, he, he2, ih]

theorem map_fst_mapModify (k : String) (f : Workspace → Workspace)
    (m : List (String × Workspace)) : (mapModify k f m).map Prod.fst = m.map Prod.fst := by
  induction m with
  | nil => simp [mapModify]
  | cons e m ih =>
    by_cases he : e.1 = k
    · simp [mapModify, he]
    · simp [mapModify, he, ih]

theorem main_update_eq (h : Host) (w : World) (spec : Spec) (workspace key : String)
    (size : Int)
    (hc : getEnvOrDie h "COMMAND" = some commandUpdate)
    (hws : getEnvOrDie h "WORKSPACE" = some workspace)
    (hfile : w.file = some spec)
    (hkey : getEnvOrDie h "KEY" = some key)
    (hsize : h.walk (workspace ++ "/" ++ key) = some size)
    (hw : h.writeFileFails w.writes.length = false) :
    ∃ w2, main h w = some w2 ∧
      w2.file = some (upsert spec key size (h.now w.nNow) (h.now (w.nNow + 1))) := by
  have hne : ¬ commandUpdate = commandInit := by decide
  have hm : main h w = updateSpecOrDie h workspace
      (upsert spec key size (h.now w.nNow) (h.now (w.nNow + 1)))
      { w with nNow := w.nNow + (if (mapLookup key spec.Workspaces).isSome then 1 else 2) } := by
    simp only [main, hc, hws, hne, if_false, if_true, update, loadSpecOrDie, hfile, hkey,
      calculateDirecotySizeOrDie, hsize]
  rw [hm]
  simp only [updateSpecOrDie]
  rw [if_neg (by simp [hw])]
  exact ⟨_, rfl, rfl⟩

/-- C4, as the code has it: for a key that the registry does not hold, `update` inserts
under it a workspace with that `Key` and the computed `Size`; its `LastUsed` is the value
of one call of `time.Now()` and its `CreationTime` the value of the next call, so the two
are equal only when the clock returns the same instant twice. -/
theorem main_update_new_key (h : Host) (w : World) (spec : Spec) (workspace key : String)
    (size : Int)
    (hc : getEnvOrDie h "COMMAND" = some commandUpdate)
    (hws : getEnvOrDie h "WORKSPACE" = some workspace)
    (hfile : w.file = some spec)
    (hkey : getEnvOrDie h "KEY" = some key)
    (hsize : h.walk (workspace ++ "/" ++ key) = some size)
    (hw : h.writeFileFails w.writes.length = false)
    (hnew : mapLookup key spec.Workspaces = none) :
    ∃ w2 spec2, main h w = some w2 ∧ w2.file = some spec2 ∧
      mapLookup key spec2.Workspaces =
        some { Key := key, Size := size, LastUsed := h.now w.nNow,
               CreationTime := h.now (w.nNow + 1) } ∧
      (∀ k, k ≠ key → mapLookup k spec2.Workspaces = mapLookup k spec.Workspaces) ∧
      spec2.CreationTime = spec.CreationTime := by
  obtain ⟨w2, h1, h2⟩ := main_update_eq h w spec workspace key size hc hws hfile hkey hsize hw
  refine ⟨w2, _, h1, h2, ?_, ?_, ?_⟩
  · simp only [upsert, hnew]
    exact mapLookup_append_new _ _ _ hnew
  · intro k hk
    simp only [upsert, hnew]
    exact mapLookup_append_other _ _ _ _ hk
  · simp only [upsert, hnew]

/-- Witness of `main_update_new_key`: the key `k` is new to `sampleSpec`. -/
theorem main_update_new_key_witness :
    ∃ w2 spec2, main (quietHost (updateVars "k") highReadings) (freshWorld sampleSpec)
        = some w2 ∧ w2.file = some spec2 ∧
      mapLookup "k" spec2.Workspaces =
        some { Key := "k", Size := 7, LastUsed := sampleClock 0,
               CreationTime := sampleClock 1 } ∧
      (∀ k, k ≠ "k" → mapLookup k spec2.Workspaces = mapLookup k sampleSpec.Workspaces) ∧
      spec2.CreationTime = sampleSpec.CreationTime :=
  main_update_new_key (quietHost (updateVars "k") highReadings) (freshWorld sampleSpec)
    sampleSpec "/w" "k" 7 (by decide) (by decide) rfl (by decide) rfl rfl (by decide)

/-- C4 fails as stated: on a clock that advances between two calls, the workspace that
`update` inserts for the new key `k` has a `CreationTime` one nanosecond after its
`LastUsed`. -/
theorem main_update_two_clock_readings :
    (main (quietHost (updateVars "k") highReadings) (freshWorld sampleSpec)).bind
        (fun w => w.file.bind (fun s => mapLookup "k" s.Workspaces))
      = some { Key := "k", Size := 7, LastUsed := 1700000000000000000,
               CreationTime := 1700000000000000001 } ∧
    mapLookup "k" sampleSpec.Workspaces = none := by
  decide

/-- C5: for a key that the registry holds, `update` keeps the `Key` and the
`CreationTime` of its workspace, sets its `Size` to the computed size and its `LastUsed`
to the update time, and leaves every other entry, the set of keys and the registry's own
`CreationTime` as they were. -/
theorem main_update_known_key (h : Host) (w : World) (spec : Spec) (workspace key : String)
    (size : Int) (s : Workspace)
    (hc : getEnvOrDie h "COMMAND" = some commandUpdate)
    (hws : getEnvOrDie h "WORKSPACE" = some workspace)
    (hfile : w.file = some spec)
    (hkey : getEnvOrDie h "KEY" = some key)
    (hsize : h.walk (workspace ++ "/" ++ key) = some size)
    (hw : h.writeFileFails w.writes.length = false)
    (hold : mapLookup key spec.Workspaces = some s) :
    ∃ w2 spec2, main h w = some w2 ∧ w2.file = some spec2 ∧
      mapLookup key spec2.Workspaces =
        some { Key := s.Key, Size := size, LastUsed := h.now w.nNow,
               CreationTime := s.CreationTime } ∧
      (∀ k, k ≠ key → mapLookup k spec2.Workspaces = mapLookup k spec.Workspaces) ∧
      spec2.Workspaces.map Prod.fst = spec.Workspaces.map Prod.fst ∧
      spec2.CreationTime = spec.CreationTime := by
  obtain ⟨w2, h1, h2⟩ := main_update_eq h w spec workspace key size hc hws hfile hkey hsize hw
  refine ⟨w2, _, h1, h2, ?_, ?_, ?_, ?_⟩
  · simp only [upsert, hold]
    exact mapLookup_mapModify_self _ _ _ _ hold
  · intro k hk
    simp only [upsert, hold]
    exact mapLookup_mapModify_other _ _ _ _ hk
  · simp only [upsert, hold]
    exact map_fst_mapModify _ _ _
  · simp only [upsert, hold]

/-- Witness of `main_update_known_key`: the key `a` of `sampleSpec`, created at 0 and
last used at 3, of size 1. -/
theorem main_update_known_key_witness :
    ∃ w2 spec2, main (quietHost (updateVars "a") highReadings) (freshWorld sampleSpec)
        = some w2 ∧ w2.file = some spec2 ∧
      mapLookup "a" spec2.Workspaces =
        some { Key := "a", Size := 7, LastUsed := sampleClock 0, CreationTime := 0 } ∧
      (∀ k, k ≠ "a" → mapLookup k spec2.Workspaces = mapLookup k sampleSpec.Workspaces) ∧
      spec2.Workspaces.map Prod.fst = sampleSpec.Workspaces.map Prod.fst ∧
      spec2.CreationTime = sampleSpec.CreationTime :=
  main_update_known_key (quietHost (updateVars "a") highReadings) (freshWorld sampleSpec)
    sampleSpec "/w" "a" 7 (sampleWorkspace "a" 3) (by decide) (by decide) rfl (by decide)
    rfl rfl (by decide)

/-! ## The loops of the two strategies -/

theorem withoutKeys_nil (m : List (String × Workspace)) : withoutKeys m [] = m := by
  simp [withoutKeys]

theorem withoutKeys_mapDelete (m : List (String × Workspace)) (s : Workspace)
    (gone : List Workspace) :
    withoutKeys (mapDelete m s.Key) gone = withoutKeys m (s :: gone) := by
  unfold withoutKeys mapDelete
  rw [List.filter_filter]
  congr 1
  funext e
  by_cases h1 : e.1 = s.Key <;> simp [h1]

theorem wrap64_of_range (x : Int) (h1 : -(2 ^ 63) ≤ x) (h2 : x < 2 ^ 63) : wrap64 x = x := by
  unfold wrap64
  omega

theorem unusedCondition_iff (days : Int) (now : Time) (s : Workspace)
    (h0 : 0 ≤ days) (h1 : days ≤ 106751) :
    unusedCondition days now s = true ↔ s.LastUsed + days * (24 * 3600000000000) < now := by
  have h63 : (2 : Int) ^ 63 = 9223372036854775808 := by norm_num
  unfold unusedCondition unusedDuration
  rw [wrap64_of_range (3600000000000 * 24 * days) (by rw [h63]; omega) (by rw [h63]; omega)]
  simp only [decide_eq_true_eq]
  constructor <;> intro h <;> linarith

theorem unusedLoop_eq (h : Host) (path : String) (days : Int) (now : Time)
    (cands : List Workspace) :
    ∀ (spec : Spec) (w : World),
      (unusedLoop h path days now cands (spec, w)).1 =
        { spec with Workspaces :=
            withoutKeys spec.Workspaces (cands.filter (unusedCondition days now)) } ∧
      (unusedLoop h path days now cands (spec, w)).2.nStat = w.nStat ∧
      (unusedLoop h path days now cands (spec, w)).2.nNow = w.nNow ∧
      (unusedLoop h path days now cands (spec, w)).2.file = w.file ∧
      (unusedLoop h path days now cands (spec, w)).2.writes = w.writes ∧
      (unusedLoop h path days now cands (spec, w)).2.removals.map Prod.fst =
        w.removals.map Prod.fst ++
          (cands.filter (unusedCondition days now)).map (fun s => path ++ "/" ++ s.Key) := by
  induction cands with
  | nil =>
    intro spec w
    simp [unusedLoop, withoutKeys_nil]
  | cons s rest ih =>
    intro spec w
    by_cases hc : unusedCondition days now s = true
    · obtain ⟨h1, h2, h3, h4, h5, h6⟩ :=
        ih { spec with Workspaces := mapDelete spec.Workspaces s.Key } (cleanWorkspace h path s w)
      simp only [unusedLoop, hc, if_true, List.filter_cons_of_pos]
      refine ⟨?_, ?_, ?_, ?_, ?_, ?_⟩
      · rw [h1]; simp [withoutKeys_mapDelete]
      · rw [h2]; simp [cleanWorkspace]
      · rw [h3]; simp [cleanWorkspace]
      · rw [h4]; simp [cleanWorkspace]
      · rw [h5]; simp [cleanWorkspace]
      · rw [h6]; simp [cleanWorkspace]
    · obtain ⟨h1, h2, h3, h4, h5, h6⟩ := ih spec w
      have hf : unusedCondition days now s = false := by simpa using hc
      simp only [unusedLoop, hf, List.filter_cons_of_neg, not_false_eq_true,
        Bool.false_eq_true, if_false]
      exact ⟨h1, h2, h3, h4, h5, h6⟩

theorem buidStatOrDie_eq (h : Host) (path : String) (w : World) (fs : Statfs_t)
    (hs : h.statfs w.nStat path = some fs) :
    buidStatOrDie h path w = some (statOf fs, { w with nStat := w.nStat + 1 }) := by
  simp [buidStatOrDie, hs]

theorem percentageLoop_eq (h : Host) (path : String) (p : Int) (r : Nat → Statfs_t)
    (hs : ∀ n, h.statfs n path = some (r n)) (cands : List Workspace) :
    ∀ (spec : Spec) (w : World), ∃ w2,
      percentageLoop h path p cands (spec, w) =
        some ({ spec with Workspaces :=
                  withoutKeys spec.Workspaces (belowTarget h p r w.nStat cands) }, w2) ∧
      w2.nStat = w.nStat + cands.length ∧ w2.nNow = w.nNow ∧ w2.file = w.file ∧
      w2.writes = w.writes ∧
      w2.removals.map Prod.fst = w.removals.map Prod.fst ++
        (belowTarget h p r w.nStat cands).map (fun s => path ++ "/" ++ s.Key) := by
  induction cands with
  | nil =>
    intro spec w
    exact ⟨w, by simp [percentageLoop, belowTarget, withoutKeys_nil], by simp, rfl, rfl, rfl,
      by simp [belowTarget]⟩
  | cons s rest ih =>
    intro spec w
    by_cases hp : p > available h (r w.nStat)
    · obtain ⟨w2, h1, h2, h3, h4, h5, h6⟩ :=
        ih { spec with Workspaces := mapDelete spec.Workspaces s.Key }
          (cleanWorkspace h path s { w with nStat := w.nStat + 1 })
      have hb : belowTarget h p r w.nStat (s :: rest)
          = s :: belowTarget h p r (w.nStat + 1) rest := by
        simp [belowTarget, hp]
      refine ⟨w2, ?_, ?_, ?_, ?_, ?_, ?_⟩
      · have hp2 : p > percentageChange h.floatToInt (statOf (r w.nStat)).Free
            (statOf (r w.nStat)).Total := hp
        rw [percentageLoop, buidStatOrDie_eq h path w (r w.nStat) (hs _)]
        simp only [if_pos hp2]
        rw [h1, hb]
        simp [cleanWorkspace, withoutKeys_mapDelete]
      · rw [h2]; simp [cleanWorkspace]; omega
      · rw [h3]; simp [cleanWorkspace]
      · rw [h4]; simp [cleanWorkspace]
      · rw [h5]; simp [cleanWorkspace]
      · rw [h6, hb]; simp [cleanWorkspace]
    · obtain ⟨w2, h1, h2, h3, h4, h5, h6⟩ := ih spec { w with nStat := w.nStat + 1 }
      have hb : belowTarget h p r w.nStat (s :: rest)
          = belowTarget h p r (w.nStat + 1) rest := by
        simp [belowTarget, hp]
      refine ⟨w2, ?_, ?_, ?_, ?_, ?_, ?_⟩
      · have hp2 : ¬ p > percentageChange h.floatToInt (statOf (r w.nStat)).Free
            (statOf (r w.nStat)).Total := hp
        rw [percentageLoop, buidStatOrDie_eq h path w (r w.nStat) (hs _)]
        simp only [if_neg hp2]
        rw [h1, hb]
      · rw [h2]; simp; omega
      · rw [h3]
      · rw [h4]
      · rw [h5]
      · rw [h6, hb]

/-! ## The two strategies unfolded -/

theorem belowTarget_nil_of_met (h : Host) (p : Int) (r : Nat → Statfs_t)
    (cands : List Workspace) :
    ∀ n : Nat, (∀ i, n ≤ i → p ≤ available h (r i)) → belowTarget h p r n cands = [] := by
  induction cands with
  | nil => intro n _; simp [belowTarget]
  | cons s rest ih =>
    intro n hmet
    have h1 : ¬ p > available h (r n) := not_lt.2 (hmet n (le_refl n))
    have h2 := ih (n + 1) (fun i hi => hmet i (by omega))
    simp only [belowTarget] at h2 ⊢
    simp [h1, h2]

theorem belowTarget_take (h : Host) (p : Int) (r : Nat → Statfs_t) (cands : List Workspace) :
    ∀ n : Nat, (∀ i j, n ≤ i → i ≤ j → p ≤ available h (r i) → p ≤ available h (r j)) →
      ∃ k, belowTarget h p r n cands = cands.take k := by
  induction cands with
  | nil => intro n _; exact ⟨0, by simp [belowTarget]⟩
  | cons s rest ih =>
    intro n hmono
    by_cases hp : p > available h (r n)
    · obtain ⟨k, hk⟩ := ih (n + 1) (fun i j hi hij => hmono i j (by omega) hij)
      refine ⟨k + 1, ?_⟩
      simp only [belowTarget] at hk ⊢
      simp [hp, hk]
    · refine ⟨0, ?_⟩
      have hz := belowTarget_nil_of_met h p r rest (n + 1)
        (fun i hi => hmono n i (le_refl n) (by omega) (not_lt.1 hp))
      simp only [belowTarget] at hz ⊢
      simp [hp, hz]

theorem cleanPercentageStrategy_eq (h : Host) (path : String) (spec : Spec) (w : World)
    (v : String) (p : Int) (fs : Statfs_t)
    (hv : getEnvOrDie h "PERCENTAGE_TO_KEEP_AVAILABLE" = some v) (hp : atoi v = some p)
    (hs : h.statfs w.nStat path = some fs) :
    cleanPercentageStrategy h path (spec, w) =
      if p > available h fs then
        (percentageLoop h path p (sortWorkspacesByTime spec.Workspaces)
            (spec, { w with nStat := w.nStat + 1 })).bind
          (fun r => (updateSpecOrDie h path r.1 r.2).map (fun w3 => (r.1, w3)))
      else some (spec, { w with nStat := w.nStat + 1 }) := by
  simp only [cleanPercentageStrategy, hv, hp, buidStatOrDie_eq h path w fs hs, available]
  split
  · cases percentageLoop h path p (sortWorkspacesByTime spec.Workspaces)
      (spec, { w with nStat := w.nStat + 1 }) <;> rfl
  · rfl

theorem cleanUnusedStrategy_eq (h : Host) (path : String) (spec : Spec) (w : World)
    (v : String) (days : Int)
    (hv : getEnvOrDie h "UNUSED_N_DAYS" = some v) (hd : atoi v = some days) :
    cleanUnusedStrategy h path (spec, w) =
      (updateSpecOrDie h path
        (unusedLoop h path days (h.now w.nNow) (sortWorkspacesByTime spec.Workspaces)
          (spec, { w with nNow := w.nNow + 1 })).1
        (unusedLoop h path days (h.now w.nNow) (sortWorkspacesByTime spec.Workspaces)
          (spec, { w with nNow := w.nNow + 1 })).2).map
        (fun w3 => ((unusedLoop h path days (h.now w.nNow)
          (sortWorkspacesByTime spec.Workspaces) (spec, { w with nNow := w.nNow + 1 })).1, w3)) := by
  simp only [cleanUnusedStrategy, hv, hd]

theorem updateSpecOrDie_eq (h : Host) (path : String) (spec : Spec) (w : World)
    (hw : h.writeFileFails w.writes.length = false) :
    updateSpecOrDie h path spec w =
      some { w with file := some spec,
                    writes := w.writes ++ [(path ++ "/" ++ workspacesSpecFileName, spec)] } := by
  simp [updateSpecOrDie, hw]

/-- What `cleanUnusedStrategy` does on a run that ends: the candidates that satisfy
`unusedCondition` leave the registry and have their directories removed, in ascending
order of `LastUsed`. -/
theorem cleanUnusedStrategy_evicts (h : Host) (path : String) (spec : Spec) (w : World)
    (v : String) (days : Int)
    (hv : getEnvOrDie h "UNUSED_N_DAYS" = some v) (hd : atoi v = some days)
    (hw : h.writeFileFails w.writes.length = false) :
    ∃ w2, cleanUnusedStrategy h path (spec, w) =
        some (Spec.mk (withoutKeys spec.Workspaces
                ((sortWorkspacesByTime spec.Workspaces).filter
                  (unusedCondition days (h.now w.nNow))))
              spec.CreationTime, w2) ∧
      w2.removals.map Prod.fst = w.removals.map Prod.fst ++
        ((sortWorkspacesByTime spec.Workspaces).filter
          (unusedCondition days (h.now w.nNow))).map (fun s => path ++ "/" ++ s.Key) := by
  obtain ⟨h1, -, -, -, h5, h6⟩ := unusedLoop_eq h path days (h.now w.nNow)
    (sortWorkspacesByTime spec.Workspaces) spec { w with nNow := w.nNow + 1 }
  have hw2 : h.writeFileFails (unusedLoop h path days (h.now w.nNow)
      (sortWorkspacesByTime spec.Workspaces)
      (spec, { w with nNow := w.nNow + 1 })).2.writes.length = false := by
    rw [h5]; exact hw
  rw [cleanUnusedStrategy_eq h path spec w v days hv hd, updateSpecOrDie_eq h path _ _ hw2]
  simp only [Option.map_some', h1]
  exact ⟨_, rfl, h6⟩

/-- What `cleanPercentageStrategy` does on a run that ends after a reading at entry below
the target: the candidates whose own reading is below the target leave the registry and
have their directories removed, in ascending order of `LastUsed`. -/
theorem cleanPercentageStrategy_below (h : Host) (path : String) (spec : Spec) (w : World)
    (v : String) (p : Int) (r : Nat → Statfs_t)
    (hv : getEnvOrDie h "PERCENTAGE_TO_KEEP_AVAILABLE" = some v) (hp : atoi v = some p)
    (hs : ∀ n, h.statfs n path = some (r n))
    (hw : h.writeFileFails w.writes.length = false)
    (hentry : p > available h (r w.nStat)) :
    ∃ w2, cleanPercentageStrategy h path (spec, w) =
        some (Spec.mk (withoutKeys spec.Workspaces
                  (belowTarget h p r (w.nStat + 1) (sortWorkspacesByTime spec.Workspaces)))
                spec.CreationTime, w2) ∧
      w2.removals.map Prod.fst = w.removals.map Prod.fst ++
        (belowTarget h p r (w.nStat + 1) (sortWorkspacesByTime spec.Workspaces)).map
          (fun s => path ++ "/" ++ s.Key) := by
  obtain ⟨w2, h1, h2, h3, h4, h5, h6⟩ := percentageLoop_eq h path p r hs
    (sortWorkspacesByTime spec.Workspaces) spec { w with nStat := w.nStat + 1 }
  have hw2 : h.writeFileFails w2.writes.length = false := by rw [h5]; exact hw
  simp only at h1 h6
  refine ⟨{ w2 with
      file := some (Spec.mk (withoutKeys spec.Workspaces
        (belowTarget h p r (w.nStat + 1) (sortWorkspacesByTime spec.Workspaces)))
        spec.CreationTime),
      writes := w2.writes ++ [(path ++ "/" ++ workspacesSpecFileName,
        Spec.mk (withoutKeys spec.Workspaces
          (belowTarget h p r (w.nStat + 1) (sortWorkspacesByTime spec.Workspaces)))
          spec.CreationTime)] }, ?_, ?_⟩
  · rw [cleanPercentageStrategy_eq h path spec w v p (r w.nStat) hv hp (hs _), if_pos hentry,
      h1]
    simp only [Option.some_bind, updateSpecOrDie_eq h path _ w2 hw2, Option.map_some']
  · exact h6

theorem mapLookup_filter_none (k : String) (f : String × Workspace → Bool)
    (m : List (String × Workspace)) (hf : ∀ e, e.1 = k → f e = false) :
    mapLookup k (m.filter f) = none := by
  induction m with
  | nil => rfl
  | cons e m ih =>
    by_cases he : e.1 = k
    · rw [List.filter_cons_of_neg (by simp [hf e he])]
      exact ih
    · by_cases hfe : f e = true
      · rw [List.filter_cons_of_pos hfe]
        simp [mapLookup, he, ih]
      · rw [List.filter_cons_of_neg hfe]
        exact ih

theorem mapLookup_withoutKeys (m : List (String × Workspace)) (gone : List Workspace)
    (s : Workspace) (hs : s ∈ gone) : mapLookup s.Key (withoutKeys m gone) = none := by
  unfold withoutKeys
  apply mapLookup_filter_none
  intro e he
  have : e.1 ∈ gone.map Workspace.Key := by
    rw [he]; exact List.mem_map_of_mem _ hs
  simp [this]


/-! ## Failed removals -/

theorem forgetOutcomes_eq_iff (w w2 : World) :
    forgetOutcomes w = forgetOutcomes w2 ↔
      w.file = w2.file ∧ w.nNow = w2.nNow ∧ w.nStat = w2.nStat ∧ w.writes = w2.writes ∧
      w.removals.map Prod.fst = w2.removals.map Prod.fst := by
  cases w with
  | mk f n s r wr =>
    cases w2 with
    | mk f2 n2 s2 r2 wr2 =>
      simp only [forgetOutcomes, World.mk.injEq]
      constructor
      · rintro ⟨h1, h2, h3, h4, h5⟩
        refine ⟨h1, h2, h3, h5, ?_⟩
        have := congrArg (List.map Prod.fst) h4
        simpa [List.map_map, Function.comp_def] using this
      · rintro ⟨h1, h2, h3, h4, h5⟩
        refine ⟨h1, h2, h3, ?_, h4⟩
        have := congrArg (List.map (fun k : String => (k, false))) h5
        simpa [List.map_map, Function.comp_def] using this

theorem forgetOutcomes_cleanWorkspace (h h2 : Host) (path : String) (s : Workspace)
    (w w2 : World) (hf : forgetOutcomes w = forgetOutcomes w2) :
    forgetOutcomes (cleanWorkspace h path s w) = forgetOutcomes (cleanWorkspace h2 path s w2) := by
  rw [forgetOutcomes_eq_iff] at hf ⊢
  obtain ⟨h1, h2, h3, h4, h5⟩ := hf
  simp [cleanWorkspace, h1, h2, h3, h4, h5]

theorem forgetOutcomes_statStep (w w2 : World) (hf : forgetOutcomes w = forgetOutcomes w2) :
    forgetOutcomes { w with nStat := w.nStat + 1 }
      = forgetOutcomes { w2 with nStat := w2.nStat + 1 } := by
  rw [forgetOutcomes_eq_iff] at hf ⊢
  obtain ⟨h1, h2, h3, h4, h5⟩ := hf
  simp [h1, h2, h3, h4, h5]

theorem updateSpecOrDie_forget (h : Host) (path : String) (spec : Spec) (w w2 : World)
    (hf : forgetOutcomes w = forgetOutcomes w2) :
    (updateSpecOrDie h path spec w).map (fun w3 => (spec, forgetOutcomes w3)) =
      (updateSpecOrDie (removalsSucceed h) path spec w2).map
        (fun w3 => (spec, forgetOutcomes w3)) := by
  have hf2 := (forgetOutcomes_eq_iff w w2).1 hf
  obtain ⟨h1, h2, h3, h4, h5⟩ := hf2
  simp only [updateSpecOrDie, removalsSucceed, h4]
  split
  · rfl
  · simp only [Option.map_some', Option.some.injEq, Prod.mk.injEq, true_and]
    rw [forgetOutcomes_eq_iff]
    simp [h1, h2, h3, h4, h5]

theorem percentageLoop_forget (h : Host) (path : String) (p : Int) (cands : List Workspace) :
    ∀ (spec : Spec) (w w2 : World), forgetOutcomes w = forgetOutcomes w2 →
      (percentageLoop h path p cands (spec, w)).map (fun r => (r.1, forgetOutcomes r.2)) =
        (percentageLoop (removalsSucceed h) path p cands (spec, w2)).map
          (fun r => (r.1, forgetOutcomes r.2)) := by
  induction cands with
  | nil =>
    intro spec w w2 hf
    simp [percentageLoop, hf]
  | cons s rest ih =>
    intro spec w w2 hf
    have hn : w.nStat = w2.nStat := ((forgetOutcomes_eq_iff w w2).1 hf).2.2.1
    have hstep := forgetOutcomes_statStep w w2 hf
    rw [hn] at hstep
    simp only [percentageLoop, buidStatOrDie, removalsSucceed, hn]
    cases hst : h.statfs w2.nStat path with
    | none => rfl
    | some fs =>
      simp only
      split
      · exact ih _ _ _ (forgetOutcomes_cleanWorkspace _ _ _ _ _ _ hstep)
      · exact ih _ _ _ hstep

theorem unusedLoop_forget (h : Host) (path : String) (days : Int) (now : Time)
    (cands : List Workspace) :
    ∀ (spec : Spec) (w w2 : World), forgetOutcomes w = forgetOutcomes w2 →
      (unusedLoop h path days now cands (spec, w)).1 =
        (unusedLoop (removalsSucceed h) path days now cands (spec, w2)).1 ∧
      forgetOutcomes (unusedLoop h path days now cands (spec, w)).2 =
        forgetOutcomes (unusedLoop (removalsSucceed h) path days now cands (spec, w2)).2 := by
  induction cands with
  | nil =>
    intro spec w w2 hf
    simp [unusedLoop, hf]
  | cons s rest ih =>
    intro spec w w2 hf
    simp only [unusedLoop]
    split
    · exact ih _ _ _ (forgetOutcomes_cleanWorkspace _ _ _ _ _ _ hf)
    · exact ih _ _ _ hf



theorem cleanPercentageStrategy_forget (h : Host) (path : String) (st : Spec × World) :
    (cleanPercentageStrategy h path st).map (fun r => (r.1, forgetOutcomes r.2)) =
      (cleanPercentageStrategy (removalsSucceed h) path st).map
        (fun r => (r.1, forgetOutcomes r.2)) := by
  obtain ⟨spec, w⟩ := st
  cases hv : getEnvOrDie h "PERCENTAGE_TO_KEEP_AVAILABLE" with
  | none =>
    have hv2 : getEnvOrDie (removalsSucceed h) "PERCENTAGE_TO_KEEP_AVAILABLE" = none := hv
    simp [cleanPercentageStrategy, hv, hv2]
  | some v =>
    have hv2 : getEnvOrDie (removalsSucceed h) "PERCENTAGE_TO_KEEP_AVAILABLE" = some v := hv
    cases hp : atoi v with
    | none => simp [cleanPercentageStrategy, hv, hv2, hp]
    | some p =>
      cases hs : h.statfs w.nStat path with
      | none =>
        have hs2 : (removalsSucceed h).statfs w.nStat path = none := hs
        simp [cleanPercentageStrategy, hv, hv2, hp, buidStatOrDie, hs, hs2]
      | some fs =>
        have hs2 : (removalsSucceed h).statfs w.nStat path = some fs := hs
        rw [cleanPercentageStrategy_eq h path spec w v p fs hv hp hs,
          cleanPercentageStrategy_eq (removalsSucceed h) path spec w v p fs hv2 hp hs2]
        have ha : available (removalsSucceed h) fs = available h fs := rfl
        rw [ha]
        split
        · have hl := percentageLoop_forget h path p (sortWorkspacesByTime spec.Workspaces) spec
            { w with nStat := w.nStat + 1 } { w with nStat := w.nStat + 1 } rfl
          cases h1 : percentageLoop h path p (sortWorkspacesByTime spec.Workspaces)
              (spec, { w with nStat := w.nStat + 1 }) with
          | none =>
            rw [h1] at hl
            cases h2 : percentageLoop (removalsSucceed h) path p
                (sortWorkspacesByTime spec.Workspaces) (spec, { w with nStat := w.nStat + 1 }) with
            | none => rfl
            | some r2 => rw [h2] at hl; simp at hl
          | some r1 =>
            rw [h1] at hl
            cases h2 : percentageLoop (removalsSucceed h) path p
                (sortWorkspacesByTime spec.Workspaces) (spec, { w with nStat := w.nStat + 1 }) with
            | none => rw [h2] at hl; simp at hl
            | some r2 =>
              rw [h2] at hl
              simp only [Option.map_some', Option.some.injEq, Prod.mk.injEq] at hl
              obtain ⟨hl1, hl2⟩ := hl
              simp only [Option.some_bind, Option.map_map, Function.comp_def]
              rw [← hl1]
              exact updateSpecOrDie_forget h path r1.1 r1.2 r2.2 hl2
        · rfl

theorem cleanUnusedStrategy_forget (h : Host) (path : String) (st : Spec × World) :
    (cleanUnusedStrategy h path st).map (fun r => (r.1, forgetOutcomes r.2)) =
      (cleanUnusedStrategy (removalsSucceed h) path st).map
        (fun r => (r.1, forgetOutcomes r.2)) := by
  obtain ⟨spec, w⟩ := st
  cases hv : getEnvOrDie h "UNUSED_N_DAYS" with
  | none =>
    have hv2 : getEnvOrDie (removalsSucceed h) "UNUSED_N_DAYS" = none := hv
    simp [cleanUnusedStrategy, hv, hv2]
  | some v =>
    have hv2 : getEnvOrDie (removalsSucceed h) "UNUSED_N_DAYS" = some v := hv
    cases hd : atoi v with
    | none => simp [cleanUnusedStrategy, hv, hv2, hd]
    | some days =>
      rw [cleanUnusedStrategy_eq h path spec w v days hv hd,
        cleanUnusedStrategy_eq (removalsSucceed h) path spec w v days hv2 hd]
      have hn : (removalsSucceed h).now w.nNow = h.now w.nNow := rfl
      rw [hn]
      obtain ⟨h1, h2⟩ := unusedLoop_forget h path days (h.now w.nNow)
        (sortWorkspacesByTime spec.Workspaces) spec { w with nNow := w.nNow + 1 }
        { w with nNow := w.nNow + 1 } rfl
      simp only [Option.map_map, Function.comp_def]
      rw [← h1]
      exact updateSpecOrDie_forget h path _ _ _ h2

/-! ## The cleaning strategies: properties -/

/-- C3: when the available percentage computed at entry to `cleanPercentageStrategy` is
greater than or equal to the target, the pass ends with the registry exactly as it was,
no directory removed, and nothing written. -/
theorem cleanPercentageStrategy_target_met (h : Host) (path : String) (spec : Spec)
    (w : World) (v : String) (p : Int) (fs : Statfs_t)
    (hv : getEnvOrDie h "PERCENTAGE_TO_KEEP_AVAILABLE" = some v) (hp : atoi v = some p)
    (hs : h.statfs w.nStat path = some fs)
    (hmet : available h fs ≥ p) :
    ∃ w2, cleanPercentageStrategy h path (spec, w) = some (spec, w2) ∧
      w2.removals = w.removals ∧ w2.file = w.file ∧ w2.writes = w.writes := by
  refine ⟨{ w with nStat := w.nStat + 1 }, ?_, rfl, rfl, rfl⟩
  rw [cleanPercentageStrategy_eq h path spec w v p fs hv hp hs, if_neg (not_lt.2 hmet)]

/-- Witness of `cleanPercentageStrategy_target_met`: 40 free blocks of 63 and the target
43; the available percentage that the code computes in `float64` is 43. -/
theorem cleanPercentageStrategy_target_met_witness :
    (∃ w2, cleanPercentageStrategy (quietHost targetVars fortyOfSixtyThree) "/w"
        (sampleSpec, freshWorld sampleSpec) = some (sampleSpec, w2) ∧
      w2.removals = (freshWorld sampleSpec).removals ∧
      w2.file = (freshWorld sampleSpec).file ∧ w2.writes = (freshWorld sampleSpec).writes) ∧
    available (quietHost targetVars fortyOfSixtyThree) (fortyOfSixtyThree 0) = 43 :=
  ⟨cleanPercentageStrategy_target_met (quietHost targetVars fortyOfSixtyThree) "/w" sampleSpec
    (freshWorld sampleSpec) "43" 43 (fortyOfSixtyThree 0) (by decide) (by decide) rfl
    (by decide!), by decide!⟩

/-- C1, as the code has it: when the reading at entry is below the target,
`cleanPercentageStrategy` visits the candidates in ascending order of `LastUsed` (each
workspace of the map once, none last used before one that precedes it), reads free and
total again before each one, and evicts exactly the candidates whose own reading gives an
available percentage below the target (`belowTarget`): their directories are removed in
that order and their keys leave the registry. It does not stop at the first candidate it
spares. The evicted candidates are the first `k` of the order whenever the readings stay
at or above the target once they have reached it. -/
theorem cleanPercentageStrategy_evicts (h : Host) (path : String) (spec : Spec) (w : World)
    (v : String) (p : Int) (r : Nat → Statfs_t)
    (hv : getEnvOrDie h "PERCENTAGE_TO_KEEP_AVAILABLE" = some v) (hp : atoi v = some p)
    (hs : ∀ n, h.statfs n path = some (r n))
    (hw : h.writeFileFails w.writes.length = false)
    (hentry : p > available h (r w.nStat)) :
    ∃ w2, cleanPercentageStrategy h path (spec, w) =
        some (Spec.mk (withoutKeys spec.Workspaces
                  (belowTarget h p r (w.nStat + 1) (sortWorkspacesByTime spec.Workspaces)))
                spec.CreationTime, w2) ∧
      w2.removals.map Prod.fst = w.removals.map Prod.fst ++
        (belowTarget h p r (w.nStat + 1) (sortWorkspacesByTime spec.Workspaces)).map
          (fun s => path ++ "/" ++ s.Key) ∧
      ((∀ i j, w.nStat < i → i ≤ j → p ≤ available h (r i) → p ≤ available h (r j)) →
        ∃ k, belowTarget h p r (w.nStat + 1) (sortWorkspacesByTime spec.Workspaces)
          = (sortWorkspacesByTime spec.Workspaces).take k) ∧
      (sortWorkspacesByTime spec.Workspaces).Perm (spec.Workspaces.map Prod.snd) ∧
      (sortWorkspacesByTime spec.Workspaces).Pairwise (fun a b => a.LastUsed ≤ b.LastUsed) ∧
      (∀ s ∈ belowTarget h p r (w.nStat + 1) (sortWorkspacesByTime spec.Workspaces),
        mapLookup s.Key (withoutKeys spec.Workspaces
          (belowTarget h p r (w.nStat + 1) (sortWorkspacesByTime spec.Workspaces))) = none) := by
  obtain ⟨w2, h1, h2⟩ := cleanPercentageStrategy_below h path spec w v p r hv hp hs hw hentry
  refine ⟨w2, h1, h2, ?_, sortSort_perm _, sortSort_sorted _, ?_⟩
  · intro hmono
    exact belowTarget_take h p r _ (w.nStat + 1) (fun i j hi hij => hmono i j (by omega) hij)
  · intro s hs2
    exact mapLookup_withoutKeys _ _ s hs2

/-- Witness of `cleanPercentageStrategy_evicts`: the readings are low at entry and before
the oldest candidate `a`, and high from then on, so they stay at or above the target once
they have reached it; `a` alone is evicted, the first candidate of the order. -/
theorem cleanPercentageStrategy_evicts_witness :
    ∃ w2 k, cleanPercentageStrategy (quietHost cleanVars risingReadings) "/w"
        (sampleSpec, freshWorld sampleSpec) =
        some (Spec.mk (withoutKeys sampleSpec.Workspaces
                  (belowTarget (quietHost cleanVars risingReadings) 50 risingReadings 1
                    (sortWorkspacesByTime sampleSpec.Workspaces)))
                sampleSpec.CreationTime, w2) ∧
      w2.removals.map Prod.fst = ["/w/a"] ∧
      belowTarget (quietHost cleanVars risingReadings) 50 risingReadings 1
          (sortWorkspacesByTime sampleSpec.Workspaces)
        = (sortWorkspacesByTime sampleSpec.Workspaces).take k ∧
      belowTarget (quietHost cleanVars risingReadings) 50 risingReadings 1
        (sortWorkspacesByTime sampleSpec.Workspaces) = [sampleWorkspace "a" 3] := by
  obtain ⟨w2, h1, h2, h3, -⟩ := cleanPercentageStrategy_evicts
    (quietHost cleanVars risingReadings) "/w" sampleSpec (freshWorld sampleSpec) "50" 50
    risingReadings (by decide) (by decide) (fun _ => rfl) rfl (by decide!)
  have hlow : available (quietHost cleanVars risingReadings) (readingOf 150) = 0 := by decide!
  have hhigh : available (quietHost cleanVars risingReadings) (readingOf 300) = 100 := by
    decide!
  have hev : belowTarget (quietHost cleanVars risingReadings) 50 risingReadings
      ((freshWorld sampleSpec).nStat + 1) (sortWorkspacesByTime sampleSpec.Workspaces)
      = [sampleWorkspace "a" 3] := by decide!
  obtain ⟨k, hk⟩ := h3 (by
    intro i j hi hij hmet
    by_cases h2 : i < 2
    · rw [risingReadings, if_pos h2, hlow] at hmet
      exact absurd hmet (by decide)
    · rw [risingReadings, if_neg (by omega), hhigh]
      decide)
  refine ⟨w2, k, h1, ?_, hk, hev⟩
  rw [h2, hev]
  decide

/-- C1 fails as stated: with a reading that is high before the oldest candidate `a` and low
again before `c` and `b`, the pass spares `a` and then evicts `c` and `b`; the evicted
workspaces are not an initial segment of the order `a`, `c`, `b`. -/
theorem cleanPercentageStrategy_no_stop :
    (cleanPercentageStrategy (quietHost cleanVars dipReadings) "/w"
        (sampleSpec, freshWorld sampleSpec)).map
        (fun r => (r.1.Workspaces.map Prod.fst, r.2.removals.map Prod.fst))
      = some (["a"], ["/w/c", "/w/b"]) ∧
    (sortWorkspacesByTime sampleSpec.Workspaces).map Workspace.Key = ["a", "c", "b"] ∧
    available (quietHost cleanVars dipReadings) (dipReadings 0) = 0 ∧
    available (quietHost cleanVars dipReadings) (dipReadings 1) = 100 ∧
    available (quietHost cleanVars dipReadings) (dipReadings 2) = 0 ∧
    available (quietHost cleanVars dipReadings) (dipReadings 3) = 0 ∧
    ¬ (["c", "b"] <+: ["a", "c", "b"]) := by
  decide!

/-- C7, as the code has it: a pass that runs to its end writes the registry it ends with
to the spec file exactly once, as its last step, with one exception: when
`cleanPercentageStrategy` finds the available percentage at entry at or above the target
it writes nothing. `cleanUnusedStrategy` writes once whether or not it evicted
anything, and so does `cleanPercentageStrategy` once the reading at entry is below the
target. -/
theorem strategies_persist (h : Host) (path : String) (spec : Spec) (w : World)
    (hw : h.writeFileFails w.writes.length = false) :
    (∀ v days, getEnvOrDie h "UNUSED_N_DAYS" = some v → atoi v = some days →
      ∃ spec2 w2, cleanUnusedStrategy h path (spec, w) = some (spec2, w2) ∧
        w2.writes = w.writes ++ [(path ++ "/" ++ workspacesSpecFileName, spec2)]) ∧
    (∀ v p (r : Nat → Statfs_t),
      getEnvOrDie h "PERCENTAGE_TO_KEEP_AVAILABLE" = some v → atoi v = some p →
      (∀ n, h.statfs n path = some (r n)) →
      ∃ spec2 w2, cleanPercentageStrategy h path (spec, w) = some (spec2, w2) ∧
        w2.writes = if p > available h (r w.nStat)
          then w.writes ++ [(path ++ "/" ++ workspacesSpecFileName, spec2)]
          else w.writes) := by
  constructor
  · intro v days hv hd
    obtain ⟨-, -, -, -, h5, -⟩ := unusedLoop_eq h path days (h.now w.nNow)
      (sortWorkspacesByTime spec.Workspaces) spec { w with nNow := w.nNow + 1 }
    have hw2 : h.writeFileFails (unusedLoop h path days (h.now w.nNow)
        (sortWorkspacesByTime spec.Workspaces)
        (spec, { w with nNow := w.nNow + 1 })).2.writes.length = false := by
      rw [h5]; exact hw
    rw [cleanUnusedStrategy_eq h path spec w v days hv hd,
      updateSpecOrDie_eq h path _ _ hw2]
    refine ⟨_, _, rfl, ?_⟩
    simp only [h5]
  · intro v p r hv hp hs
    rw [cleanPercentageStrategy_eq h path spec w v p (r w.nStat) hv hp (hs _)]
    by_cases hentry : p > available h (r w.nStat)
    · obtain ⟨w2, h1, -, -, -, h5, -⟩ := percentageLoop_eq h path p r hs
        (sortWorkspacesByTime spec.Workspaces) spec { w with nStat := w.nStat + 1 }
      have hw2 : h.writeFileFails w2.writes.length = false := by rw [h5]; exact hw
      simp only [if_pos hentry, h1, Option.some_bind, updateSpecOrDie_eq h path _ w2 hw2,
        Option.map_some']
      refine ⟨_, _, rfl, ?_⟩
      simp only [h5]
    · simp only [if_neg hentry]
      exact ⟨_, _, rfl, rfl⟩

/-- Witness of `strategies_persist`: both passes on `sampleSpec`, the percentage pass with
readings that are low at entry. -/
theorem strategies_persist_witness :
    (∃ spec2 w2, cleanUnusedStrategy (quietHost cleanVars risingReadings) "/w"
        (sampleSpec, freshWorld sampleSpec) = some (spec2, w2) ∧
      w2.writes = (freshWorld sampleSpec).writes ++
        [("/w" ++ "/" ++ workspacesSpecFileName, spec2)]) ∧
    (∃ spec2 w2, cleanPercentageStrategy (quietHost cleanVars risingReadings) "/w"
        (sampleSpec, freshWorld sampleSpec) = some (spec2, w2) ∧
      w2.writes =
        if 50 > available (quietHost cleanVars risingReadings)
            (risingReadings (freshWorld sampleSpec).nStat)
          then (freshWorld sampleSpec).writes ++
            [("/w" ++ "/" ++ workspacesSpecFileName, spec2)]
          else (freshWorld sampleSpec).writes) :=
  ⟨(strategies_persist (quietHost cleanVars risingReadings) "/w" sampleSpec
      (freshWorld sampleSpec) rfl).1 "30" 30 (by decide) (by decide),
   (strategies_persist (quietHost cleanVars risingReadings) "/w" sampleSpec
      (freshWorld sampleSpec) rfl).2 "50" 50 risingReadings (by decide) (by decide)
      (fun _ => rfl)⟩

/-- C7 fails as stated: with 300 free blocks of 300 and the target 50,
`cleanPercentageStrategy` runs to its end, evicts nothing and writes nothing. -/
theorem cleanPercentageStrategy_no_write :
    (cleanPercentageStrategy (quietHost cleanVars highReadings) "/w"
        (sampleSpec, freshWorld sampleSpec)).map (fun r => (r.1, r.2.removals, r.2.writes))
      = some (sampleSpec, [], []) ∧
    available (quietHost cleanVars highReadings) (highReadings 0) = 100 := by
  decide!

/-- C8, as the code has it: a failed removal neither ends the pass nor keeps the entry.
Every candidate that a pass decides to evict leaves the registry, whatever the outcome of
`RemoveAll`: the unused pass ends with the registry without the candidates that satisfy
`unusedCondition`, and the percentage pass, after a reading at entry below the target,
with the registry without the candidates whose own reading is below the target; none of
their keys is found in the registry afterwards. On the same `Statfs` readings each pass
ends or dies as it does on the host on which every removal succeeds, with the same
registry, spec file, writes and removed paths. The readings are part of the condition:
the percentage pass decides on them, and a failed removal frees no space. -/
theorem failed_removals_still_evict (h : Host) (path : String) (spec : Spec) (w : World)
    (hw : h.writeFileFails w.writes.length = false) :
    (∀ v days, getEnvOrDie h "UNUSED_N_DAYS" = some v → atoi v = some days →
      ∃ w2, cleanUnusedStrategy h path (spec, w) =
          some (Spec.mk (withoutKeys spec.Workspaces
                  ((sortWorkspacesByTime spec.Workspaces).filter
                    (unusedCondition days (h.now w.nNow))))
                spec.CreationTime, w2) ∧
        w2.removals.map Prod.fst = w.removals.map Prod.fst ++
          ((sortWorkspacesByTime spec.Workspaces).filter
            (unusedCondition days (h.now w.nNow))).map (fun s => path ++ "/" ++ s.Key) ∧
        (∀ s ∈ (sortWorkspacesByTime spec.Workspaces).filter
            (unusedCondition days (h.now w.nNow)),
          mapLookup s.Key (withoutKeys spec.Workspaces
            ((sortWorkspacesByTime spec.Workspaces).filter
              (unusedCondition days (h.now w.nNow)))) = none)) ∧
    (∀ v p (r : Nat → Statfs_t),
      getEnvOrDie h "PERCENTAGE_TO_KEEP_AVAILABLE" = some v → atoi v = some p →
      (∀ n, h.statfs n path = some (r n)) → p > available h (r w.nStat) →
      ∃ w2, cleanPercentageStrategy h path (spec, w) =
          some (Spec.mk (withoutKeys spec.Workspaces
                  (belowTarget h p r (w.nStat + 1) (sortWorkspacesByTime spec.Workspaces)))
                spec.CreationTime, w2) ∧
        w2.removals.map Prod.fst = w.removals.map Prod.fst ++
          (belowTarget h p r (w.nStat + 1) (sortWorkspacesByTime spec.Workspaces)).map
            (fun s => path ++ "/" ++ s.Key) ∧
        (∀ s ∈ belowTarget h p r (w.nStat + 1) (sortWorkspacesByTime spec.Workspaces),
          mapLookup s.Key (withoutKeys spec.Workspaces
            (belowTarget h p r (w.nStat + 1) (sortWorkspacesByTime spec.Workspaces)))
            = none)) ∧
    (cleanPercentageStrategy h path (spec, w)).map (fun r => (r.1, forgetOutcomes r.2)) =
      (cleanPercentageStrategy (removalsSucceed h) path (spec, w)).map
        (fun r => (r.1, forgetOutcomes r.2)) ∧
    (cleanUnusedStrategy h path (spec, w)).map (fun r => (r.1, forgetOutcomes r.2)) =
      (cleanUnusedStrategy (removalsSucceed h) path (spec, w)).map
        (fun r => (r.1, forgetOutcomes r.2)) := by
  refine ⟨?_, ?_, cleanPercentageStrategy_forget h path (spec, w),
    cleanUnusedStrategy_forget h path (spec, w)⟩
  · intro v days hv hd
    obtain ⟨w2, h1, h2⟩ := cleanUnusedStrategy_evicts h path spec w v days hv hd hw
    exact ⟨w2, h1, h2, fun s hs => mapLookup_withoutKeys _ _ s hs⟩
  · intro v p r hv hp hs hentry
    obtain ⟨w2, h1, h2⟩ := cleanPercentageStrategy_below h path spec w v p r hv hp hs hw hentry
    exact ⟨w2, h1, h2, fun s hs2 => mapLookup_withoutKeys _ _ s hs2⟩

/-- Witness of `failed_removals_still_evict`: on a host on which every removal fails, with
readings that stay low, both passes remove all three entries from the registry, and each
removal is recorded as failed. -/
theorem failed_removals_still_evict_witness :
    (∃ w2, cleanUnusedStrategy (stubbornHost cleanVars dipReadings) "/w"
        (sampleSpec, freshWorld sampleSpec) =
        some (Spec.mk (withoutKeys sampleSpec.Workspaces
                ((sortWorkspacesByTime sampleSpec.Workspaces).filter
                  (unusedCondition 30 (sampleClock 0))))
              sampleSpec.CreationTime, w2) ∧
      mapLookup "a" (withoutKeys sampleSpec.Workspaces
          ((sortWorkspacesByTime sampleSpec.Workspaces).filter
            (unusedCondition 30 (sampleClock 0)))) = none) ∧
    (cleanUnusedStrategy (stubbornHost cleanVars dipReadings) "/w"
        (sampleSpec, freshWorld sampleSpec)).map
        (fun r => (r.1.Workspaces.map Prod.fst, r.2.removals))
      = some ([], [("/w/a", true), ("/w/c", true), ("/w/b", true)]) := by
  obtain ⟨w2, h1, -, h3⟩ := (failed_removals_still_evict (stubbornHost cleanVars dipReadings)
    "/w" sampleSpec (freshWorld sampleSpec) rfl).1 "30" 30 (by decide) (by decide)
  exact ⟨⟨w2, h1, h3 (sampleWorkspace "a" 3) (by decide)⟩, by decide⟩

/-- C8 fails as stated: on a disk of 300 blocks with 150 free, of which the directory of
`a` holds the rest, and the target 50, the percentage pass removes the entry of `a` alone
when the removal succeeds (300 blocks are free from then on), and the entries of `a`, `c`
and `b` when every removal fails (150 blocks stay free): the entries removed are not
those removed when every removal succeeds. -/
theorem failed_removals_evict_more :
    (cleanPercentageStrategy (diskHost true) "/w" (diskSpec, freshWorld diskSpec)).map
        (fun r => (r.1.Workspaces.map Prod.fst, r.2.removals))
      = some ([], [("/w/a", true), ("/w/c", true), ("/w/b", true)]) ∧
    (cleanPercentageStrategy (diskHost false) "/w" (diskSpec, freshWorld diskSpec)).map
        (fun r => (r.1.Workspaces.map Prod.fst, r.2.removals))
      = some (["b", "c"], [("/w/a", false)]) := by
  decide!

/-- A run of both strategies on a host on which every removal fails: the failures are
recorded and the entries leave the registry all the same. -/
theorem stubborn_run :
    (cleanPercentageStrategy (stubbornHost cleanVars risingReadings) "/w"
        (sampleSpec, freshWorld sampleSpec)).map
        (fun r => (r.1.Workspaces.map Prod.fst, r.2.removals))
      = some (["b", "c"], [("/w/a", true)]) ∧
    (cleanUnusedStrategy (stubbornHost cleanVars risingReadings) "/w"
        (sampleSpec, freshWorld sampleSpec)).map
        (fun r => (r.1.Workspaces.map Prod.fst, r.2.removals))
      = some ([], [("/w/a", true), ("/w/c", true), ("/w/b", true)]) := by
  decide!

/-- The examples of the specification for `unusedDays = 30`: last used 31 days before now,
evicted; 29 days and exactly 30 days before now, retained. -/
theorem unusedCondition_thirty_days :
    unusedCondition 30 (sampleClock 0)
      (sampleWorkspace "x" (sampleClock 0 - 31 * (24 * 3600000000000))) = true ∧
    unusedCondition 30 (sampleClock 0)
      (sampleWorkspace "x" (sampleClock 0 - 29 * (24 * 3600000000000))) = false ∧
    unusedCondition 30 (sampleClock 0)
      (sampleWorkspace "x" (sampleClock 0 - 30 * (24 * 3600000000000))) = false := by
  decide

/-- C2 fails on the code: for `UNUSED_N_DAYS=106752` the duration
`time.Hour * 24 * time.Duration(days)` leaves the range of `int64` and wraps to a negative
number of nanoseconds, so the workspace `a`, last used one hour before now, is evicted,
although its last use plus 106752 days is not before now. -/
theorem cleanUnusedStrategy_overflow :
    unusedDuration 106752 = -9223371273709551616 ∧
    unusedCondition 106752 (sampleClock 0)
      (sampleWorkspace "a" (sampleClock 0 - 3600000000000)) = true ∧
    (cleanUnusedStrategy (quietHost overflowVars highReadings) "/w"
        (recentSpec, freshWorld recentSpec)).map (fun r => (r.1.Workspaces, r.2.removals))
      = some ([], [("/w/a", false)]) ∧
    ¬ ((sampleClock 0 - 3600000000000) + 106752 * (24 * 3600000000000) < sampleClock 0) := by
  decide

/-! ## The `clean` command -/

theorem splitColon_piece (a b : List Char) (ha : ':' ∉ a) :
    ∀ cur : List Char,
      splitColon cur (a ++ ':' :: b) = String.mk (cur.reverse ++ a) :: splitColon [] b := by
  induction a with
  | nil => intro cur; simp [splitColon]
  | cons c cs ih =>
    intro cur
    have hc : c ≠ ':' := fun hc => ha (by simp [hc])
    have hcs : ':' ∉ cs := fun hm => ha (List.mem_cons_of_mem _ hm)
    rw [List.cons_append, splitColon, if_neg hc, ih hcs (c :: cur)]
    simp

theorem splitColon_last (a : List Char) (ha : ':' ∉ a) :
    ∀ cur : List Char, splitColon cur a = [String.mk (cur.reverse ++ a)] := by
  induction a with
  | nil => intro cur; simp [splitColon]
  | cons c cs ih =>
    intro cur
    have hc : c ≠ ':' := fun hc => ha (by simp [hc])
    have hcs : ':' ∉ cs := fun hm => ha (List.mem_cons_of_mem _ hm)
    rw [splitColon, if_neg hc, ih hcs (c :: cur)]
    simp

theorem cleanLoop_append (h : Host) (workspace : String) (names rest : List String) :
    ∀ st : Spec × World,
      cleanLoop h workspace (names ++ rest) st =
        (cleanLoop h workspace names st).bind (cleanLoop h workspace rest) := by
  induction names with
  | nil => intro st; simp [cleanLoop]
  | cons s more ih =>
    intro st
    simp only [List.cons_append, cleanLoop]
    cases applyStrategy h workspace s st with
    | none => rfl
    | some st1 => exact ih st1

theorem clean_eq (h : Host) (workspace : String) (w : World) (spec : Spec) (strategy : String)
    (hfile : w.file = some spec)
    (henv : getEnvOrDie h "CLEAN_STRATEGY" = some strategy) :
    clean h workspace w = cleanLoop h workspace (splitColon [] strategy.data) (spec, w) := by
  simp only [clean, loadSpecOrDie, hfile, henv]

theorem applyStrategy_perecentage (h : Host) (workspace : String) (st : Spec × World) :
    applyStrategy h workspace cleaningStrategyFreePerecentage st
      = cleanPercentageStrategy h workspace st := by
  have hne : ¬ cleaningStrategyFreePerecentage = cleaningStrategyNotUsedAtLeast := by decide
  simp only [applyStrategy, if_true, if_neg hne]
  cases cleanPercentageStrategy h workspace st <;> rfl

theorem applyStrategy_unused (h : Host) (workspace : String) (st : Spec × World) :
    applyStrategy h workspace cleaningStrategyNotUsedAtLeast st
      = cleanUnusedStrategy h workspace st := by
  have hne : ¬ cleaningStrategyNotUsedAtLeast = cleaningStrategyFreePerecentage := by decide
  simp only [applyStrategy, if_true, if_neg hne]

theorem applyStrategy_other (h : Host) (workspace s : String) (st : Spec × World)
    (h1 : s ≠ cleaningStrategyFreePerecentage) (h2 : s ≠ cleaningStrategyNotUsedAtLeast) :
    applyStrategy h workspace s st = some st := by
  simp only [applyStrategy, if_neg h1, if_neg h2]

/-- C6: `clean` loads the registry once and applies the names of `CLEAN_STRATEGY`, split
at the colons, from left to right: the first name is applied to the loaded registry and
the remaining names to the state that it leaves; the loop over a list of names is the loop
over its first part followed by the loop over the rest; `perecentage` runs the percentage
pass and `unused` the unused pass. For `perecentage:unused` the result is the unused pass
applied to the state that the percentage pass leaves. -/
theorem clean_applies_in_order (h : Host) (workspace : String) (w : World) (spec : Spec)
    (strategy : String)
    (hfile : w.file = some spec)
    (henv : getEnvOrDie h "CLEAN_STRATEGY" = some strategy) :
    clean h workspace w = cleanLoop h workspace (splitColon [] strategy.data) (spec, w) ∧
    (∀ (name : List Char) (more : List Char), ':' ∉ name →
      strategy.data = name ++ ':' :: more →
      clean h workspace w =
        (applyStrategy h workspace (String.mk name) (spec, w)).bind
          (cleanLoop h workspace (splitColon [] more))) ∧
    (':' ∉ strategy.data → clean h workspace w = applyStrategy h workspace strategy (spec, w)) ∧
    (∀ (names rest : List String) (st : Spec × World),
      cleanLoop h workspace (names ++ rest) st =
        (cleanLoop h workspace names st).bind (cleanLoop h workspace rest)) ∧
    (∀ st, applyStrategy h workspace "perecentage" st = cleanPercentageStrategy h workspace st) ∧
    (∀ st, applyStrategy h workspace "unused" st = cleanUnusedStrategy h workspace st) ∧
    (strategy = "perecentage:unused" →
      clean h workspace w =
        (cleanPercentageStrategy h workspace (spec, w)).bind (cleanUnusedStrategy h workspace)) := by
  have hc := clean_eq h workspace w spec strategy hfile henv
  refine ⟨hc, ?_, ?_, cleanLoop_append h workspace, applyStrategy_perecentage h workspace,
    applyStrategy_unused h workspace, ?_⟩
  · intro name more hname hdata
    rw [hc, hdata, splitColon_piece name more hname []]
    simp only [List.reverse_nil, List.nil_append, cleanLoop]
    cases applyStrategy h workspace (String.mk name) (spec, w) <;> rfl
  · intro hno
    rw [hc, splitColon_last strategy.data hno []]
    simp only [List.reverse_nil, List.nil_append, cleanLoop]
    cases applyStrategy h workspace strategy (spec, w) <;> rfl
  · intro hs
    have hsplit : splitColon [] strategy.data
        = [cleaningStrategyFreePerecentage, cleaningStrategyNotUsedAtLeast] := by
      rw [hs]; decide
    rw [hc, hsplit]
    simp only [cleanLoop, applyStrategy_perecentage, applyStrategy_unused]
    cases cleanPercentageStrategy h workspace (spec, w) with
    | none => rfl
    | some st1 =>
      simp only [Option.some_bind]
      cases cleanUnusedStrategy h workspace st1 <;> rfl

/-- Witness of `clean_applies_in_order`: `CLEAN_STRATEGY=perecentage:unused`. -/
theorem clean_applies_in_order_witness :
    clean (quietHost cleanVars risingReadings) "/w" (freshWorld sampleSpec) =
      (cleanPercentageStrategy (quietHost cleanVars risingReadings) "/w"
        (sampleSpec, freshWorld sampleSpec)).bind
        (cleanUnusedStrategy (quietHost cleanVars risingReadings) "/w") :=
  (clean_applies_in_order (quietHost cleanVars risingReadings) "/w" (freshWorld sampleSpec)
    sampleSpec "perecentage:unused" rfl (by decide)).2.2.2.2.2.2 rfl

end WorkspaceManager
